import Mathlib

/-!
# Verification of core pstore algorithms against their specification

Shallow embedding of the relevant parts of the pstore sources:
* `include/pstore/support/varint.hpp` (prefix varint encode/decode),
* `include/pstore/core/hamt_map_types.hpp` (branch lookup, tagged index pointers),
* `lib/core/indirect_string.cpp` (indirect-string equality),
* `lib/core/storage.cpp` / `include/pstore/core/storage.hpp` (protect, copy, SAT/shrink),
* `lib/os/file.cpp` (`range_lock`).

Machine integers are modelled as `Nat` with explicit `% 2^w` / masks where the
C++ code relies on a fixed word width.  All definitions are executable; the
recursive bit-scanning helpers use an explicit fuel argument (the value itself
bounds the recursion depth) so that they reduce in the kernel.
-/

namespace Pstore

/-! ## Bit counting (`bit_count.hpp`: `ctz`, `pop_count`)

`ctz` returns the number of trailing zero bits and `pop_count` the number of
set bits of a machine word.  Both are modelled by recursion on the binary
digits, driven by a fuel argument equal to the input value (the value halves
at every step, so the fuel never runs out for the values we pass). -/

def ctzAux : Nat → Nat → Nat
  | 0, _ => 0
  | fuel + 1, n => if n % 2 = 1 ∨ n = 0 then 0 else ctzAux fuel (n / 2) + 1

def ctz (n : Nat) : Nat := ctzAux n n

def popAux : Nat → Nat → Nat
  | 0, _ => 0
  | fuel + 1, n => if n = 0 then 0 else n % 2 + popAux fuel (n / 2)

def pop_count (n : Nat) : Nat := popAux n n

/-! ## A fuel-based binary logarithm (used to model `clz`)

`varint.hpp` computes `64 - clz(x|1)`, the bit width of a 64-bit word; over
`Nat` that quantity is `log2 (x ||| 1) + 1`.  We use a fuel-based `log2` so
that the kernel can evaluate it, and relate it to `Nat.log2`. -/

def log2Aux : Nat → Nat → Nat
  | 0, _ => 0
  | fuel + 1, n => if n ≥ 2 then log2Aux fuel (n / 2) + 1 else 0

def log2 (n : Nat) : Nat := log2Aux n n


namespace varint


/-! ## Varint (`include/pstore/support/varint.hpp`)

Bytes are `Nat` values `< 256`; byte sequences are `List Nat` in stream
order. -/

/-- `64 - clz(x | 1)`: the number of significant bits of `x` (at least 1). -/
def bitsOf (x : Nat) : Nat := log2 (x ||| 1) + 1

/-- The low `n` bytes of `v`, least significant first (the `switch` ladder in
`varint::encode` / the byte-assembly loops in `decode`). -/
def leBytes : Nat → Nat → List Nat
  | 0, _ => []
  | n + 1, v => v % 256 :: leBytes n (v / 256)

def fromLE : List Nat → Nat
  | [] => 0
  | b :: bs => b + 256 * fromLE bs

/-- `varint::encode` (varint.hpp lines 80–108). -/
def encode (x : Nat) : List Nat :=
  let bits := bitsOf x
  if bits > 56 then
    0 :: leBytes 8 x
  else
    let bytes := (bits - 1) / 7 + 1
    leBytes bytes ((2 * x + 1) <<< (bytes - 1))

/-- `varint::encoded_size` (varint.hpp lines 66–78). -/
def encoded_size (x : Nat) : Nat :=
  if x > (1 <<< (7 * 8)) - 1 then 9 else (bitsOf x - 1) / 7 + 1

/-- `varint::decode_size` applied to the first byte (varint.hpp lines 111–116). -/
def decode_size (b : Nat) : Nat := ctz (b ||| 256) + 1

/-- `varint::details::decode9`: skip the length byte, read 8 LE bytes. -/
def decode9 (bs : List Nat) : Nat := fromLE ((bs.drop 1).take 8)

/-- `varint::decode` (the one-argument overload, varint.hpp lines 158–161,
which computes the size from the first byte and dispatches). -/
def decode (bs : List Nat) : Nat :=
  match bs with
  | [] => 0
  | b :: _ =>
    let size := decode_size b
    if size = 9 then decode9 bs
    else fromLE (bs.take size) >>> size


/-- The byte count chosen by `encode` for values of fewer than 57 bits. -/
def bytesOf (x : Nat) : Nat := (bitsOf x - 1) / 7 + 1

end varint

/-- All 64 bits set: the value of `~0` on a 64-bit word (`uintptr_t` /
`uint64_t`); `~m` on such a word is modelled as `mask64 ^^^ m`. -/
def mask64 : Nat := 2 ^ 64 - 1

namespace index

/-! ## HAMT node types (`include/pstore/core/hamt_map_types.hpp`)

A child pointer (`index_pointer`) is a 64-bit word; a `branch` carries a
64-bit bitmap and a packed array of child-pointer words. -/

/-- `index::details::not_found` = `std::numeric_limits<std::size_t>::max ()`. -/
def not_found : Nat := 2 ^ 64 - 1

/-- `index::details::branch`: the 64-bit `bitmap_` and the packed `children_`
array of `index_pointer` words (hamt_map_types.hpp lines 700–709). -/
structure branch where
  bitmap : Nat
  children : List Nat

/-- `branch::size`: `pop_count (bitmap_)` (hamt_map_types.hpp lines 640–643). -/
def branch.size (b : branch) : Nat := pop_count b.bitmap

/-- `branch::lookup` (hamt_map_types.hpp lines 713–723). -/
def branch.lookup (b : branch) (hash_index : Nat) : Nat × Nat :=
  let bit_pos := 1 <<< hash_index
  if b.bitmap &&& bit_pos ≠ 0 then
    let index := pop_count (b.bitmap &&& (bit_pos - 1))
    (b.children.getD index 0, index)
  else
    (0, not_found)

/-- `branch_bit = 1 << 0` (hamt_map_types.hpp line 75). -/
def branch_bit : Nat := 1

/-- `heap_bit = 1 << 1` (hamt_map_types.hpp line 76). -/
def heap_bit : Nat := 2

/-- `index_pointer::tag`: `ptr | branch_bit | heap_bit`
(hamt_map_types.hpp lines 249–255). -/
def index_pointer.tag (p : Nat) : Nat := p ||| branch_bit ||| heap_bit

/-- `index_pointer::is_branch`: `(ptr & branch_bit) != 0`. -/
def index_pointer.is_branch (w : Nat) : Bool := decide (w &&& branch_bit ≠ 0)

/-- `index_pointer::is_heap`: `(ptr & heap_bit) != 0`. -/
def index_pointer.is_heap (w : Nat) : Bool := decide (w &&& heap_bit ≠ 0)

/-- `index_pointer::is_address`: `!is_heap ()`. -/
def index_pointer.is_address (w : Nat) : Bool := ! index_pointer.is_heap w

/-- `index_pointer::is_leaf`: `!is_branch ()`. -/
def index_pointer.is_leaf (w : Nat) : Bool := ! index_pointer.is_branch w

/-- `index_pointer::to_address`: returns the stored word as an address. -/
def index_pointer.to_address (w : Nat) : Nat := w

/-- `index_pointer::untag`: `ptr & ~branch_bit & ~heap_bit` over a 64-bit
word (hamt_map_types.hpp lines 240–246). -/
def index_pointer.untag (w : Nat) : Nat :=
  w &&& (mask64 ^^^ branch_bit) &&& (mask64 ^^^ heap_bit)

end index

namespace indirect

/-! ## Indirect strings (`lib/core/indirect_string.cpp`)

An `indirect_string` is either a heap pointer to a string view
(`is_pointer_ == true`) or a 64-bit store word whose LSB distinguishes a
tagged heap pointer (form b) from the address of a canonical in-store body
(form c).  String contents are byte lists; the environment `Env` gives the
contents reachable through heap pointers and through store addresses. -/

/-- `indirect_string::in_heap_mask` = 1. -/
def in_heap_mask : Nat := 1

/-- The dereferencing context: `heap p` is the contents of the string view at
heap pointer `p`; `store a` is the contents of the string body at store
address `a`. -/
structure Env where
  heap : Nat → List Nat
  store : Nat → List Nat

/-- The two constructor forms of `pstore::indirect_string`: a heap string-view
pointer (`is_pointer_ == true`, field `str_`) or an in-store word
(`is_pointer_ == false`, field `address_`). -/
inductive indirect_string where
  | ptr (p : Nat)
  | addr (a : Nat)

/-- `indirect_string::is_pointer_`. -/
def is_pointer : indirect_string → Bool
  | .ptr _ => true
  | .addr _ => false

/-- The `address_` field (only meaningful when `is_pointer_` is false). -/
def addressOf : indirect_string → Nat
  | .ptr _ => 0
  | .addr a => a

/-- Form (c): an in-store address whose LSB is clear (the canonical body). -/
def is_form_c : indirect_string → Bool
  | .ptr _ => false
  | .addr a => decide (a &&& in_heap_mask = 0)

/-- `indirect_string::as_string_view` (indirect_string.cpp lines 28–37). -/
def as_string_view (e : Env) : indirect_string → List Nat
  | .ptr p => e.heap p
  | .addr a =>
    if a &&& in_heap_mask ≠ 0 then e.heap (a &&& (mask64 ^^^ in_heap_mask))
    else e.store a

/-- `indirect_string::equal_contents` (indirect_string.cpp lines 86–90). -/
def equal_contents (e : Env) (x y : indirect_string) : Bool :=
  decide (as_string_view e x = as_string_view e y)

/-- `indirect_string::operator==` (indirect_string.cpp lines 64–82): both
in-store → address comparison; both heap pointers to the same view → true;
otherwise byte-content comparison. -/
def eq_op (e : Env) (x y : indirect_string) : Bool :=
  match x, y with
  | .addr a, .addr b => decide (a = b)
  | .ptr p, .ptr q => if p = q then true else equal_contents e (.ptr p) (.ptr q)
  | x, y => equal_contents e x y

end indirect

namespace file

/-! ## `range_lock` (`lib/os/file.cpp` lines 76–148)

The lock object is its field state; file-level effects (`file_->lock`,
`file_->unlock`) are returned explicitly as a list of calls. -/

inductive lock_kind where
  | shared_read
  | exclusive_write
deriving DecidableEq

/-- A call made on the underlying `file_base`. -/
inductive FileOp where
  | lockCall (offset size : Nat)
  | unlockCall (offset size : Nat)
deriving DecidableEq

/-- The fields of `pstore::file::range_lock`: `file_` is modelled by whether
it is non-null (`fileValid`), plus `offset_`, `size_`, `kind_`, `locked_`. -/
structure range_lock where
  fileValid : Bool
  offset : Nat
  size : Nat
  kind : lock_kind
  locked : Bool
deriving DecidableEq

/-- `range_lock::unlock` (file.cpp lines 143–148): calls `file_->unlock` iff
`locked_ && file_ != nullptr`, and always clears `locked_`. -/
def range_lock.unlock (l : range_lock) : range_lock × List FileOp :=
  if l.locked && l.fileValid then
    ({ l with locked := false }, [FileOp.unlockCall l.offset l.size])
  else
    ({ l with locked := false }, [])

/-- The destructor (file.cpp lines 96–98): the file-level calls made when the
object is destroyed, i.e. those of `unlock`. -/
def range_lock.destruct (l : range_lock) : List FileOp := l.unlock.2

/-- Move construction (file.cpp lines 83–92): the new object copies every
field; the moved-from object gets `file_ = nullptr` and `locked_ = false`.
Returns (new object, moved-from object). -/
def range_lock.moveCtor (other : range_lock) : range_lock × range_lock :=
  (⟨other.fileValid, other.offset, other.size, other.kind, other.locked⟩,
   { other with fileValid := false, locked := false })

/-- Move assignment onto `t` from a distinct object `other`
(file.cpp lines 102–115): `t` first unlocks (emitting its file-level calls),
then adopts `other`'s fields; `other` is left with `file_ = nullptr`,
`locked_ = false`.  Returns (assigned object, moved-from object, calls). -/
def range_lock.moveAssign (t other : range_lock) : range_lock × range_lock × List FileOp :=
  (⟨other.fileValid, other.offset, other.size, other.kind, other.locked⟩,
   { other with fileValid := false, locked := false },
   t.unlock.2)

end file

namespace storage

/-! ## Storage page protection (`lib/core/storage.cpp` lines 31–44 and 183–214)

A region is an (offset, size) pair of a contiguous mapped file range; the
storage's `regions_` vector lists them in ascending offset order.
`storage::protect` walks the vector in reverse and calls
`region->read_only (ptr, count)`; we record those calls as (absolute file
offset, byte count) pairs. -/

/-- `round_down (x, b) = x & ~(b - 1)` over 64-bit words (storage.cpp
lines 31–36; `b` is required to be a power of two). -/
def round_down (x b : Nat) : Nat := x &&& (mask64 ^^^ (b - 1))

/-- The reverse-order region walk of `storage::protect` (storage.cpp lines
191–213): `f` and `l` are the already-rounded `first`/`last` addresses; the
input list holds the regions in the order visited (reverse of `regions_`).
Returns the `read_only` calls as (absolute offset, length) pairs. -/
def protectLoop (f l : Nat) : List (Nat × Nat) → List (Nat × Nat)
  | [] => []
  | (off, size) :: rest =>
    let first_offset := max off f
    let last_offset := min (off + size) l
    if off + size < first_offset then []
    else if f ≤ first_offset ∧ first_offset < last_offset then
      (first_offset, last_offset - first_offset) :: protectLoop f l rest
    else
      protectLoop f l rest

/-- `storage::protect (first, last)` (storage.cpp lines 183–214): clamp
`first` up to the first page boundary at or after `leader_size`, round
`first` and `last` down to page boundaries, then walk the regions from the
back. -/
def protect (page_size leader_size : Nat) (regions : List (Nat × Nat))
    (first last : Nat) : List (Nat × Nat) :=
  let f := max (round_down first page_size)
               (round_down (leader_size + page_size - 1) page_size)
  let l := round_down last page_size
  protectLoop f l regions.reverse

/-- Whether the byte at file offset `byte` is covered by one of the emitted
`read_only` calls. -/
def isProtected (calls : List (Nat × Nat)) (byte : Nat) : Bool :=
  calls.any fun c => decide (c.1 ≤ byte ∧ byte < c.1 + c.2)

/-- The reversed region list tiles the file range `[b, e)` contiguously:
the head is the region ending at `e`, and so on down to `b`. -/
def contigRev : List (Nat × Nat) → Nat → Nat → Bool
  | [], b, e => b == e
  | (off, size) :: rest, b, e =>
    (off + size == e) && decide (0 < size) && contigRev rest b off

/-! ### Spanning copy (`include/pstore/core/storage.hpp` lines 307–355)

`storage::copy` walks the segment address table; we record each invocation
of the `copier` callback as an (absolute store offset, byte count) pair. -/

/-- `address::segment_size`: the 4 MiB segment granularity (spec §3.1). -/
def segment_size : Nat := 2 ^ 22

/-- The region owning byte `x`: the SAT lookup `(*sat_)[x / segment_size]
.region`, modelled as a scan of the ordered region list. -/
def regionFind : List (Nat × Nat) → Nat → Option (Nat × Nat)
  | [], _ => none
  | (off, size) :: rest, x =>
    if off ≤ x ∧ x < off + size then some (off, size) else regionFind rest x

/-- The `for` loop of `storage::copy` (storage.hpp lines 339–354): `seg` is
the segment of the previous chunk's start, `prev` the previous chunk's size,
`sz` the bytes still to copy.  Each iteration advances the segment by
`(prev + segment_size - 1) / segment_size`, reads that segment's region from
the SAT, and copies `min (sz, region_size)` bytes from the region base.
`fuel` bounds the iteration count (every iteration copies at least one byte
whenever the region is non-empty). -/
def copyLoop (regions : List (Nat × Nat)) : Nat → Nat → Nat → Nat → List (Nat × Nat)
  | 0, _, _, _ => []
  | fuel + 1, seg, prev, sz =>
    if sz = 0 then []
    else
      let seg' := seg + (prev + segment_size - 1) / segment_size
      match regionFind regions (seg' * segment_size) with
      | none => []
      | some (off, rsize) =>
        let copy_size := min sz rsize
        (off, copy_size) :: copyLoop regions fuel seg' copy_size (sz - copy_size)

/-- `storage::copy (addr, size, p, copier)` (storage.hpp lines 307–355): the
first chunk runs from `addr` to the end of `addr`'s region (capped at
`size`); the loop then copies whole regions until `size` bytes are done.
Returns the list of `copier` calls as (store offset, byte count) pairs. -/
def copy (regions : List (Nat × Nat)) (addr size : Nat) : List (Nat × Nat) :=
  match regionFind regions (addr / segment_size * segment_size) with
  | none => []
  | some (off, rsize) =>
    let copy_size := min (rsize - (addr - off)) size
    (addr, copy_size) :: copyLoop regions size (addr / segment_size) copy_size (size - copy_size)

/-- The region list tiles `[b, e)` contiguously in ascending order. -/
def contig : List (Nat × Nat) → Nat → Nat → Bool
  | [], b, e => b == e
  | (off, size) :: rest, b, e =>
    (off == b) && decide (0 < size) && contig rest (off + size) e

/-- Region offsets and sizes are whole multiples of the segment size (the
invariant asserted by `storage::shrink` and relied on by `copy`). -/
def alignedRegions (regions : List (Nat × Nat)) : Bool :=
  regions.all fun r => (r.1 % segment_size == 0) && (r.2 % segment_size == 0)

/-- The number of region boundaries lying strictly inside the byte range
`[a, a + n)`: region start offsets `b` with `a < b < a + n`. -/
def boundariesCrossed (regions : List (Nat × Nat)) (a n : Nat) : Nat :=
  (regions.filter fun r => decide (a < r.1 ∧ r.1 < a + n)).length

/-- The chunks are consecutive in store order starting at `s`. -/
def chunksContiguousFrom : Nat → List (Nat × Nat) → Bool
  | _, [] => true
  | s, (off, len) :: rest => (off == s) && chunksContiguousFrom (s + len) rest

/-- Total number of bytes covered by the chunks. -/
def sumLens (chunks : List (Nat × Nat)) : Nat := (chunks.map Prod.snd).sum

/-- A chunk is maximal for its region: it runs from its start to the end of
the owning region, or to the end `last` of the whole request, whichever is
smaller. -/
def chunkMaximal (regions : List (Nat × Nat)) (last : Nat) (c : Nat × Nat) : Bool :=
  match regionFind regions c.1 with
  | none => false
  | some (off, rsize) => c.1 + c.2 == min (off + rsize) last

/-! ### SAT maintenance: `map_bytes` / `shrink` (storage.cpp lines 57–180)

The segment address table is modelled as a function from segment number to
the owning region's (offset, size) pair (`sat_entry::region`); `none` models
a null entry. -/

/-- `storage::full_region_size` = 4 GiB (storage.hpp line 60). -/
def full_region_size : Nat := 2 ^ 32

/-- `storage::min_region_size` = 4 MiB (storage.hpp line 61). -/
def min_region_size : Nat := 2 ^ 22

/-- The storage state: the mapped regions (ascending, as in `regions_`) and
the segment address table. -/
structure State where
  regions : List (Nat × Nat)
  sat : Nat → Option (Nat × Nat)

/-- `regions_.back ()->end ()`: the file offset of the end of the last mapped
region, 0 when there are none (storage.cpp lines 61–62). -/
def endOf (regions : List (Nat × Nat)) : Nat :=
  match regions.getLast? with
  | none => 0
  | some r => r.1 + r.2

/-- Writing the SAT entries `[base, base + cnt)`. -/
def satSet (sat : Nat → Option (Nat × Nat)) (base cnt : Nat) (v : Option (Nat × Nat)) :
    Nat → Option (Nat × Nat) :=
  fun sg => if base ≤ sg ∧ sg < base + cnt then v else sat sg

/-- Modelled from the spec: `region::factory::add` (the factory lives in
`include/pstore/core/region.hpp`, which is not among the sources) covers the
gap `[old_physical, new_size)` with full-size regions while a whole one fits,
then with min-size regions. -/
def factoryAdd (old_physical new_size : Nat) : List (Nat × Nat) :=
  let gap := new_size - old_physical
  let fulls := gap / full_region_size
  let rems := (gap % full_region_size + min_region_size - 1) / min_region_size
  (List.range fulls).map (fun i => (old_physical + i * full_region_size, full_region_size))
    ++ (List.range rems).map
      (fun j => (old_physical + fulls * full_region_size + j * min_region_size,
                 min_region_size))

/-- The region loop of `storage::update_master_pointers` (storage.cpp lines
146–148), each iteration being `slice_region_into_segments` (lines 159–180):
fill `size / segment_size` consecutive SAT entries, starting at `segIt`, with
the region. -/
def umpLoop : (Nat → Option (Nat × Nat)) → Nat → List (Nat × Nat) →
    Nat → Option (Nat × Nat)
  | sat, _, [] => sat
  | sat, segIt, r :: rest =>
    umpLoop (satSet sat segIt (r.2 / segment_size) (some r)) (segIt + r.2 / segment_size) rest

/-- `storage::update_master_pointers (old_length)` (storage.cpp lines
119–157): start at the SAT entry following the last old region and slice
every newer region into segments. -/
def update_master_pointers (regions : List (Nat × Nat))
    (sat : Nat → Option (Nat × Nat)) (old_length : Nat) : Nat → Option (Nat × Nat) :=
  let last_sat_entry :=
    if old_length = 0 then 0
    else
      let r := regions.getD (old_length - 1) (0, 0)
      (r.1 + r.2) / segment_size
  umpLoop sat last_sat_entry (regions.drop old_length)

/-- The while loop of `storage::shrink` (storage.cpp lines 82–109), walking
the reversed region list: a region starting at or beyond `new_size` has its
SAT entries nulled and is dropped; the walk stops at the first region that
starts below `new_size`. -/
def shrinkLoop : List (Nat × Nat) → (Nat → Option (Nat × Nat)) → Nat →
    List (Nat × Nat) × (Nat → Option (Nat × Nat))
  | [], sat, _ => ([], sat)
  | (off, size) :: rest, sat, new_size =>
    if off < new_size then ((off, size) :: rest, sat)
    else shrinkLoop rest (satSet sat (off / segment_size) (size / segment_size) none) new_size

/-- `storage::shrink (new_size)` (storage.cpp lines 79–115). -/
def shrink (s : State) (new_size : Nat) : State :=
  { regions := (shrinkLoop s.regions.reverse s.sat new_size).1.reverse,
    sat := (shrinkLoop s.regions.reverse s.sat new_size).2 }

/-- `storage::map_bytes` (storage.cpp lines 58–75): growing past the mapped
physical size appends factory regions and populates their SAT entries;
shrinking below the old logical size drops regions. -/
def map_bytes (s : State) (old_logical new_logical : Nat) : State :=
  let physical := endOf s.regions
  if physical < new_logical then
    { regions := s.regions ++ factoryAdd physical new_logical,
      sat := update_master_pointers (s.regions ++ factoryAdd physical new_logical)
        s.sat s.regions.length }
  else if new_logical < old_logical then shrink s new_logical
  else s

/-- A storage operation. -/
inductive Op where
  | map_bytes (old_logical new_logical : Nat)
  | shrink (new_size : Nat)

/-- One operation step. -/
def step (s : State) : Op → State
  | .map_bytes o n => map_bytes s o n
  | .shrink n => shrink s n

/-- Running a sequence of operations from the empty storage (no regions, all
SAT entries null). -/
def run (ops : List Op) : State :=
  ops.foldl step ⟨[], fun _ => none⟩

/-- The storage invariants (spec §4.C): the regions tile `[0, physical)`
contiguously in ascending order, offsets and sizes are segment-aligned, and
every SAT entry holds exactly the region containing its segment's bytes. -/
def wf (s : State) : Prop :=
  contig s.regions 0 (endOf s.regions) = true ∧
  alignedRegions s.regions = true ∧
  ∀ seg, s.sat seg = regionFind s.regions (seg * segment_size)

end storage

namespace hamt

/-! ## HAMT insertion (spec §4.G)

Modelled from the spec: the `hamt_map` insert implementation
(`include/pstore/core/hamt_map.hpp`) is not among the sources; only its node
types (`hamt_map_types.hpp`), the set façade (`hamt_set.hpp`) and the
`IndirectStringAdder.NewString` unit test are.  The model below follows the
spec's insert algorithm: descend 6-bit hash chunks through branches; an empty
slot receives a new leaf; an equal key returns the existing leaf with
`inserted = false`; unequal keys nest branches until their hash chunks differ
or the depth budget is exhausted, at which point a linear node collects the
colliding leaves; linear insertion appends.

Keys are `Nat`s; the store is the list of serialized keys, a leaf address
being an index into it; appending to the store models allocation through the
transaction (its length is the transaction size). -/

/-- A trie node: leaf (store address of a key), branch (an association of
6-bit hash chunks to children, abstracting the bitmap + packed array), or
linear collision node. -/
inductive node where
  | leaf (a : Nat)
  | branch (children : List (Nat × node))
  | linear (addrs : List Nat)

/-- `max_branch_depth` = `max_hash_bits / hash_index_bits` = `66 / 6` = 11
(hamt_map_types.hpp lines 66–68). -/
def max_branch_depth : Nat := 11

/-- Reading a branch slot. -/
def lookupChild : List (Nat × node) → Nat → Option node
  | [], _ => none
  | (c', v) :: t, c => if c' = c then some v else lookupChild t c

/-- Writing a branch slot (insert or replace). -/
def setChild : List (Nat × node) → Nat → node → List (Nat × node)
  | [], c, v => [(c, v)]
  | (c', v') :: t, c, v => if c' = c then (c, v) :: t else (c', v') :: setChild t c v

/-- Linear search of a collision node: the first address whose stored key
equals `key`. -/
def linearFind (store : List Nat) : List Nat → Nat → Option Nat
  | [], _ => none
  | a :: rest, key =>
    if store.getD a 0 = key then some a else linearFind store rest key

/-- The collision-list reading of a node, used when the depth budget is
exhausted. -/
def addrsOf : node → List Nat
  | .leaf a => [a]
  | .linear l => l
  | .branch _ => []

/-- Leaf discriminator. -/
def isLeaf : node → Bool
  | .leaf _ => true
  | _ => false

/-- Modelled from the spec (§4.G step 2): nest branches at the positions
dictated by the next chunks of the two hashes until they differ, or create a
linear node when the depth budget runs out.  `hNew`/`hOld` are the remaining
hash bits of the new and the existing key; `aNew`/`aOld` their leaf
addresses. -/
def join : Nat → Nat → Nat → Nat → Nat → node
  | 0, _, _, aNew, aOld => .linear [aOld, aNew]
  | fuel + 1, hNew, hOld, aNew, aOld =>
    let c1 := hNew % 64
    let c2 := hOld % 64
    if c1 = c2 then .branch [(c1, join fuel (hNew / 64) (hOld / 64) aNew aOld)]
    else .branch [(c1, .leaf aNew), (c2, .leaf aOld)]

/-- Modelled from the spec (§4.G insert): insert `key` below a node.  `h` is
the not-yet-consumed part of `hash key`, `d` the current depth (so the
existing key's remaining hash is `hash k / 64 ^ d`), `fuel` the remaining
branch-depth budget.  Returns (store, replacement node, leaf address,
inserted?). -/
def insertAt (hash : Nat → Nat) : Nat → List Nat → node → Nat → Nat → Nat →
    List Nat × node × Nat × Bool
  | 0, store, n, _, _, key =>
    let addrs := match n with
      | .leaf a => [a]
      | .linear l => l
      | .branch _ => []
    (match linearFind store addrs key with
     | some a => (store, .linear addrs, a, false)
     | none => (store ++ [key], .linear (addrs ++ [store.length]), store.length, true))
  | fuel + 1, store, n, h, d, key =>
    match n with
    | .leaf a =>
      if store.getD a 0 = key then (store, .leaf a, a, false)
      else
        (store ++ [key],
         join (fuel + 1) h (hash (store.getD a 0) / 64 ^ d) store.length a,
         store.length, true)
    | .linear addrs =>
      (match linearFind store addrs key with
       | some a => (store, .linear addrs, a, false)
       | none => (store ++ [key], .linear (addrs ++ [store.length]), store.length, true))
    | .branch ch =>
      let c := h % 64
      match lookupChild ch c with
      | none =>
        (store ++ [key], .branch (setChild ch c (.leaf store.length)), store.length, true)
      | some (.leaf a) =>
        if store.getD a 0 = key then (store, .branch ch, a, false)
        else
          (store ++ [key],
           .branch (setChild ch c
             (join fuel (h / 64) (hash (store.getD a 0) / 64 ^ (d + 1)) store.length a)),
           store.length, true)
      | some child =>
        let r := insertAt hash fuel store child (h / 64) (d + 1) key
        (r.1, .branch (setChild ch c r.2.1), r.2.2.1, r.2.2.2)

/-- `index.insert` at the root: a null root receives the first leaf. -/
def insertRoot (hash : Nat → Nat) (store : List Nat) (root : Option node) (key : Nat) :
    List Nat × Option node × Nat × Bool :=
  match root with
  | none => (store ++ [key], some (.leaf store.length), store.length, true)
  | some n =>
    let r := insertAt hash max_branch_depth store n (hash key) 0 key
    (r.1, some r.2.1, r.2.2.1, r.2.2.2)

/-- Every leaf address stored in the node is a valid index into the store. -/
inductive validNode (len : Nat) : node → Prop where
  | leaf : ∀ a, a < len → validNode len (.leaf a)
  | branch : ∀ ch, (∀ c ∈ ch, validNode len c.2) → validNode len (.branch ch)
  | linear : ∀ addrs, (∀ a ∈ addrs, a < len) → validNode len (.linear addrs)

/-- Validity of an optional root. -/
def validRoot (len : Nat) : Option node → Prop
  | none => True
  | some n => validNode len n

end hamt


theorem ctzAux_congr : ∀ f g n : Nat, n ≤ f → n ≤ g → ctzAux f n = ctzAux g n := by
  intro f
  induction f with
  | zero =>
    intro g n hf _
    interval_cases n
    cases g <;> simp [ctzAux]
  | succ f ih =>
    intro g n hf hg
    cases g with
    | zero =>
      interval_cases n
      simp [ctzAux]
    | succ g =>
      show ctzAux (f + 1) n = ctzAux (g + 1) n
      unfold ctzAux
      by_cases h : n % 2 = 1 ∨ n = 0
      · simp [h]
      · have hn : n ≠ 0 := by tauto
        have h2 : n / 2 ≤ f := by omega
        have h3 : n / 2 ≤ g := by omega
        simp only [if_neg h]
        rw [ih g (n / 2) h2 h3]

theorem ctzAux_succ (f n : Nat) :
    ctzAux (f + 1) n = if n % 2 = 1 ∨ n = 0 then 0 else ctzAux f (n / 2) + 1 := rfl

theorem ctz_eq (n : Nat) : ctz n = if n % 2 = 1 ∨ n = 0 then 0 else ctz (n / 2) + 1 := by
  cases n with
  | zero => simp [ctz, ctzAux]
  | succ m =>
    show ctzAux (m + 1) (m + 1) = _
    rw [ctzAux_succ]
    by_cases h : (m + 1) % 2 = 1 ∨ m + 1 = 0
    · rw [if_pos h, if_pos h]
    · rw [if_neg h, if_neg h]
      have h2 : ctzAux m ((m + 1) / 2) = ctz ((m + 1) / 2) :=
        ctzAux_congr m ((m + 1) / 2) ((m + 1) / 2) (by omega) le_rfl
      rw [h2]

theorem ctz_odd {n : Nat} (h : n % 2 = 1) : ctz n = 0 := by
  rw [ctz_eq]; simp [h]

theorem ctz_two_mul {n : Nat} (h : n ≠ 0) : ctz (2 * n) = ctz n + 1 := by
  rw [ctz_eq]
  have h1 : ¬(2 * n % 2 = 1 ∨ 2 * n = 0) := by omega
  rw [if_neg h1]
  have h2 : 2 * n / 2 = n := by omega
  rw [h2]

theorem ctz_pow_mul (k : Nat) {m : Nat} (hm : m % 2 = 1) : ctz (2 ^ k * m) = k := by
  induction k with
  | zero => simpa using ctz_odd hm
  | succ k ih =>
    have : 2 ^ (k + 1) * m = 2 * (2 ^ k * m) := by ring
    rw [this, ctz_two_mul (Nat.mul_ne_zero (by positivity) (by omega)), ih]

theorem popAux_congr : ∀ f g n : Nat, n ≤ f → n ≤ g → popAux f n = popAux g n := by
  intro f
  induction f with
  | zero =>
    intro g n hf _
    interval_cases n
    cases g <;> simp [popAux]
  | succ f ih =>
    intro g n hf hg
    cases g with
    | zero =>
      interval_cases n
      simp [popAux]
    | succ g =>
      show popAux (f + 1) n = popAux (g + 1) n
      unfold popAux
      by_cases h : n = 0
      · simp [h]
      · simp only [if_neg h]
        rw [ih g (n / 2) (by omega) (by omega)]

theorem popAux_succ (f n : Nat) :
    popAux (f + 1) n = if n = 0 then 0 else n % 2 + popAux f (n / 2) := rfl

theorem pop_count_eq (n : Nat) : pop_count n = if n = 0 then 0 else n % 2 + pop_count (n / 2) := by
  cases n with
  | zero => simp [pop_count, popAux]
  | succ m =>
    show popAux (m + 1) (m + 1) = _
    rw [popAux_succ]
    have h : ¬(m + 1 = 0) := by omega
    rw [if_neg h, if_neg h]
    have h2 : popAux m ((m + 1) / 2) = pop_count ((m + 1) / 2) :=
      popAux_congr m ((m + 1) / 2) ((m + 1) / 2) (by omega) le_rfl
    rw [h2]

theorem pop_count_zero : pop_count 0 = 0 := rfl

theorem pop_count_two_mul_add {m b : Nat} (hb : b < 2) :
    pop_count (2 * m + b) = b + pop_count m := by
  by_cases h : 2 * m + b = 0
  · have hm : m = 0 := by omega
    have hb0 : b = 0 := by omega
    simp [hm, hb0, pop_count_zero]
  · rw [pop_count_eq, if_neg h]
    have h1 : (2 * m + b) % 2 = b := by omega
    have h2 : (2 * m + b) / 2 = m := by omega
    rw [h1, h2]

/-- Splitting a number at bit `k` splits its population count. -/
theorem pop_count_split (k : Nat) : ∀ n : Nat, pop_count n = pop_count (n % 2 ^ k) + pop_count (n / 2 ^ k) := by
  induction k with
  | zero => intro n; simp [Nat.mod_one, Nat.div_one, pop_count_zero]
  | succ k ih =>
    intro n
    have hmod : n % 2 ^ (k + 1) = 2 * ((n / 2) % 2 ^ k) + n % 2 := by
      have h1 : (2 : Nat) ^ (k + 1) = 2 * 2 ^ k := by ring
      rw [h1, Nat.mod_mul]
      omega
    have hdiv : n / 2 ^ (k + 1) = (n / 2) / 2 ^ k := by
      rw [Nat.div_div_eq_div_mul]
      congr 1
      ring
    rw [hmod, hdiv, pop_count_two_mul_add (by omega)]
    have hsplit : pop_count n = n % 2 + pop_count (n / 2) := by
      by_cases h : n = 0
      · simp [h, pop_count_zero]
      · rw [pop_count_eq, if_neg h]
    rw [hsplit, ih (n / 2)]
    omega

/-- If bit `k` of `n` is set then the part of `n` above bit `k` contributes at
least one to the population count. -/
theorem pop_count_mod_lt_of_testBit {n k : Nat} (h : n.testBit k = true) :
    pop_count (n % 2 ^ k) < pop_count n := by
  rw [pop_count_split k n]
  have h1 : (n / 2 ^ k) % 2 = 1 := by
    have h0 := Nat.toNat_testBit n k
    rw [h] at h0
    simpa using h0.symm
  have h2 : 0 < pop_count (n / 2 ^ k) := by
    rw [pop_count_eq, if_neg (by omega)]
    omega
  omega
theorem log2Aux_congr : ∀ f g n : Nat, n ≤ f → n ≤ g → log2Aux f n = log2Aux g n := by
  intro f
  induction f with
  | zero =>
    intro g n hf _
    interval_cases n
    cases g <;> simp [log2Aux]
  | succ f ih =>
    intro g n hf hg
    cases g with
    | zero =>
      interval_cases n
      simp [log2Aux]
    | succ g =>
      show log2Aux (f + 1) n = log2Aux (g + 1) n
      unfold log2Aux
      by_cases h : n ≥ 2
      · simp only [if_pos h]
        rw [ih g (n / 2) (by omega) (by omega)]
      · simp [h]

theorem log2Aux_succ (f n : Nat) :
    log2Aux (f + 1) n = if n ≥ 2 then log2Aux f (n / 2) + 1 else 0 := rfl

theorem log2_eq (n : Nat) : log2 n = if n ≥ 2 then log2 (n / 2) + 1 else 0 := by
  cases n with
  | zero => simp [log2, log2Aux]
  | succ m =>
    show log2Aux (m + 1) (m + 1) = _
    rw [log2Aux_succ]
    by_cases h : m + 1 ≥ 2
    · rw [if_pos h, if_pos h]
      have h2 : log2Aux m ((m + 1) / 2) = log2 ((m + 1) / 2) :=
        log2Aux_congr m ((m + 1) / 2) ((m + 1) / 2) (by omega) le_rfl
      rw [h2]
    · rw [if_neg h, if_neg h]

theorem log2_eq_natLog2 : ∀ n : Nat, log2 n = Nat.log2 n := by
  intro n
  induction n using Nat.strong_induction_on with
  | _ n ih =>
    rw [Nat.log2, log2_eq]
    by_cases h : n ≥ 2
    · rw [if_pos h, if_pos h, ih (n / 2) (by omega)]
    · rw [if_neg h, if_neg h]

namespace varint

theorem length_leBytes (n : Nat) : ∀ v : Nat, (leBytes n v).length = n := by
  induction n with
  | zero => intro v; rfl
  | succ n ih => intro v; simp [leBytes, ih]

theorem fromLE_leBytes (n : Nat) : ∀ v : Nat, fromLE (leBytes n v) = v % 256 ^ n := by
  induction n with
  | zero => intro v; simp [leBytes, fromLE, Nat.mod_one]
  | succ n ih =>
    intro v
    have hpow : (256 : Nat) ^ (n + 1) = 256 * 256 ^ n := by ring
    rw [leBytes, fromLE, ih, hpow, Nat.mod_mul]

theorem lor_one_eq (x : Nat) : x ||| 1 = 2 * (x / 2) + 1 := by
  apply Nat.eq_of_testBit_eq
  intro i
  cases i with
  | zero =>
    rw [Nat.testBit_lor]
    simp only [Nat.testBit_zero]
    have h1 : (2 * (x / 2) + 1) % 2 = 1 := by omega
    simp [h1]
  | succ i =>
    rw [Nat.testBit_lor, Nat.testBit_succ, Nat.testBit_succ, Nat.testBit_succ]
    have h1 : (1 : Nat) / 2 = 0 := by norm_num
    have h2 : (2 * (x / 2) + 1) / 2 = x / 2 := by omega
    rw [h1, h2, Nat.zero_testBit, Bool.or_false]

theorem le_lor_one (x : Nat) : x ≤ x ||| 1 := by
  rw [lor_one_eq]; omega

theorem lor_one_ne_zero (x : Nat) : x ||| 1 ≠ 0 := by
  rw [lor_one_eq]; omega

theorem lt_two_pow_bitsOf (x : Nat) : x < 2 ^ bitsOf x := by
  have h1 : x ||| 1 < 2 ^ (Nat.log2 (x ||| 1) + 1) := Nat.lt_log2_self
  have h2 := le_lor_one x
  unfold bitsOf
  rw [log2_eq_natLog2]
  omega

theorem bitsOf_gt_56_iff (x : Nat) : bitsOf x > 56 ↔ 2 ^ 56 ≤ x := by
  unfold bitsOf
  rw [log2_eq_natLog2]
  have hne := lor_one_ne_zero x
  have h56 : 56 ≤ Nat.log2 (x ||| 1) ↔ 2 ^ 56 ≤ x ||| 1 := Nat.le_log2 hne
  have hor : x ||| 1 = 2 * (x / 2) + 1 := lor_one_eq x
  have hx : 2 * (x / 2) + x % 2 = x := by omega
  have hpow : (2 : Nat) ^ 56 = 72057594037927936 := by norm_num
  omega

theorem bytesOf_le_8 {x : Nat} (h : bitsOf x ≤ 56) : bytesOf x ≤ 8 := by
  unfold bytesOf; omega

theorem bitsOf_le_mul {x : Nat} : bitsOf x ≤ 7 * bytesOf x := by
  have h1 : 1 ≤ bitsOf x := Nat.le_add_left 1 _
  unfold bytesOf
  omega

theorem encode_low {x : Nat} (h : ¬ bitsOf x > 56) :
    encode x = leBytes (bytesOf x) ((2 * x + 1) * 2 ^ (bytesOf x - 1)) := by
  simp only [encode, if_neg h, Nat.shiftLeft_eq, bytesOf]

theorem encode_high {x : Nat} (h : bitsOf x > 56) : encode x = 0 :: leBytes 8 x := by
  simp only [encode, if_pos h]

theorem xprime_lt {x : Nat} (h : ¬ bitsOf x > 56) :
    (2 * x + 1) * 2 ^ (bytesOf x - 1) < 2 ^ (8 * bytesOf x) := by
  have hb1 : 1 ≤ bytesOf x := Nat.le_add_left 1 _
  have hx : x < 2 ^ bitsOf x := lt_two_pow_bitsOf x
  have h1 : 2 * x + 1 < 2 ^ (bitsOf x + 1) := by
    have : (2 : Nat) ^ (bitsOf x + 1) = 2 * 2 ^ bitsOf x := by ring
    omega
  have h2 : (2 : Nat) ^ (bitsOf x + 1) ≤ 2 ^ (7 * bytesOf x + 1) :=
    Nat.pow_le_pow_right (by norm_num) (by have := bitsOf_le_mul (x := x); omega)
  calc (2 * x + 1) * 2 ^ (bytesOf x - 1)
      < 2 ^ (7 * bytesOf x + 1) * 2 ^ (bytesOf x - 1) :=
        (Nat.mul_lt_mul_right (Nat.two_pow_pos _)).mpr (by omega)
    _ = 2 ^ (7 * bytesOf x + 1 + (bytesOf x - 1)) := by rw [← Nat.pow_add]
    _ = 2 ^ (8 * bytesOf x) := by congr 1; omega

set_option maxRecDepth 8000 in
/-- `a ||| 0x100 = a + 0x100` for any byte value `a`. -/
theorem lor_256 : ∀ a : Nat, a < 256 → a ||| 256 = a + 256 := by decide

theorem leBytes_succ_pred {n : Nat} (v : Nat) (h : 1 ≤ n) :
    leBytes n v = v % 256 :: leBytes (n - 1) (v / 256) := by
  cases n with
  | zero => omega
  | succ m => simp [leBytes]

theorem pow_split_256 {b : Nat} (h1 : 1 ≤ b) (h8 : b ≤ 8) :
    (256 : Nat) = 2 ^ (9 - b) * 2 ^ (b - 1) := by
  rw [← Nat.pow_add]
  have he : 9 - b + (b - 1) = 8 := by omega
  rw [he]

theorem first_byte_low {x : Nat} (h : ¬ bitsOf x > 56) :
    ((2 * x + 1) * 2 ^ (bytesOf x - 1)) % 256 =
      ((2 * x + 1) % 2 ^ (9 - bytesOf x)) * 2 ^ (bytesOf x - 1) := by
  have hb1 : 1 ≤ bytesOf x := Nat.le_add_left 1 _
  have hb8 : bytesOf x ≤ 8 := bytesOf_le_8 (by omega)
  rw [pow_split_256 hb1 hb8, Nat.mul_mod_mul_right]

theorem decode_size_low {x : Nat} (h : ¬ bitsOf x > 56) :
    decode_size (((2 * x + 1) * 2 ^ (bytesOf x - 1)) % 256) = bytesOf x := by
  have hb1 : 1 ≤ bytesOf x := Nat.le_add_left 1 _
  have hb8 : bytesOf x ≤ 8 := bytesOf_le_8 (by omega)
  rw [first_byte_low h]
  set b := bytesOf x with hb
  set o := (2 * x + 1) % 2 ^ (9 - b) with ho
  have hob : o < 2 ^ (9 - b) := Nat.mod_lt _ (Nat.two_pow_pos _)
  have hodd : o % 2 = 1 := by
    rw [ho, Nat.mod_mod_of_dvd _ (dvd_pow_self 2 (by omega))]
    omega
  have hlt : o * 2 ^ (b - 1) < 256 := by
    calc o * 2 ^ (b - 1) < 2 ^ (9 - b) * 2 ^ (b - 1) :=
          (Nat.mul_lt_mul_right (Nat.two_pow_pos _)).mpr hob
      _ = 256 := (pow_split_256 hb1 hb8).symm
  rw [decode_size, lor_256 _ hlt]
  have hsum : o * 2 ^ (b - 1) + 256 = 2 ^ (b - 1) * (o + 2 ^ (9 - b)) := by
    rw [pow_split_256 hb1 hb8]; ring
  have hsodd : (o + 2 ^ (9 - b)) % 2 = 1 := by
    obtain ⟨c, hc⟩ : (2 : Nat) ∣ 2 ^ (9 - b) := dvd_pow_self 2 (by omega)
    omega
  rw [hsum, ctz_pow_mul _ hsodd]
  omega

/-- The first byte of `encode x` determines the length of `encode x`
(and the encoding is never empty). -/
theorem decode_size_head (x : Nat) :
    decode_size ((encode x).headD 0) = (encode x).length ∧ 1 ≤ (encode x).length := by
  by_cases h : bitsOf x > 56
  · rw [encode_high h]
    refine ⟨?_, by simp⟩
    simp only [List.headD_cons, List.length_cons, length_leBytes]
    decide
  · rw [encode_low h]
    have hb1 : 1 ≤ bytesOf x := Nat.le_add_left 1 _
    rw [leBytes_succ_pred _ hb1]
    simp only [List.headD_cons, List.length_cons, length_leBytes]
    constructor
    · rw [decode_size_low h]
      omega
    · omega

/-- Decoding inverts encoding for every 64-bit value. -/
theorem decode_encode {x : Nat} (hx : x < 2 ^ 64) : decode (encode x) = x := by
  by_cases h : bitsOf x > 56
  · rw [encode_high h]
    have h9 : decode_size 0 = 9 := by decide
    have hd : decode (0 :: leBytes 8 x) = decode9 (0 :: leBytes 8 x) := by
      simp [decode, h9]
    rw [hd, decode9, List.drop_succ_cons, List.drop_zero]
    have hlen : (leBytes 8 x).length = 8 := length_leBytes 8 x
    rw [List.take_of_length_le (le_of_eq hlen), fromLE_leBytes]
    have h8 : (256 : Nat) ^ 8 = 2 ^ 64 := by norm_num
    rw [h8]
    exact Nat.mod_eq_of_lt hx
  · rw [encode_low h]
    have hb1 : 1 ≤ bytesOf x := Nat.le_add_left 1 _
    have hb8 : bytesOf x ≤ 8 := bytesOf_le_8 (by omega)
    set x' := (2 * x + 1) * 2 ^ (bytesOf x - 1) with hx'
    have hhead : leBytes (bytesOf x) x' = x' % 256 :: leBytes (bytesOf x - 1) (x' / 256) :=
      leBytes_succ_pred _ hb1
    have hds : decode_size (x' % 256) = bytesOf x := decode_size_low h
    have hd : decode (leBytes (bytesOf x) x') =
        fromLE ((leBytes (bytesOf x) x').take (bytesOf x)) >>> bytesOf x := by
      rw [hhead]
      simp only [decode, hds]
      rw [if_neg (by omega), ← hhead]
    rw [hd]
    have hlen : (leBytes (bytesOf x) x').length = bytesOf x := length_leBytes _ _
    rw [List.take_of_length_le (le_of_eq hlen), fromLE_leBytes]
    have hxlt : x' < 256 ^ bytesOf x := by
      have h1 := xprime_lt h
      have h2 : (256 : Nat) ^ bytesOf x = 2 ^ (8 * bytesOf x) := by
        have h3 : (256 : Nat) = 2 ^ 8 := by norm_num
        rw [h3, ← Nat.pow_mul]
      omega
    rw [Nat.mod_eq_of_lt hxlt, Nat.shiftRight_eq_div_pow, hx']
    obtain ⟨c, hc⟩ : ∃ c, bytesOf x = c + 1 := ⟨bytesOf x - 1, by omega⟩
    rw [hc]
    simp only [Nat.add_sub_cancel]
    have hpow : (2 : Nat) ^ (c + 1) = 2 * 2 ^ c := by ring
    rw [hpow, Nat.mul_div_mul_right _ _ (Nat.two_pow_pos _)]
    omega

end varint

/-! ## Claim C1 -/

/-- **C1**: Varint round-trip.  For every `x` in `[0, 2^64-1]`, decoding the
bytes produced by `varint::encode (x)` yields `x` again, and `decode_size`
applied to the first byte of `encode (x)` equals the total number of bytes
that `encode (x)` produced. -/
theorem claim_C1_varint_roundtrip (x : Nat) (hx : x < 2 ^ 64) :
    varint.decode (varint.encode x) = x ∧
    varint.decode_size ((varint.encode x).headD 0) = (varint.encode x).length :=
  ⟨varint.decode_encode hx, (varint.decode_size_head x).1⟩

theorem claim_C1_varint_roundtrip_witness :
    300 < 2 ^ 64 ∧
    (varint.decode (varint.encode 300) = 300 ∧
      varint.decode_size ((varint.encode 300).headD 0) = (varint.encode 300).length) :=
  ⟨by norm_num, claim_C1_varint_roundtrip 300 (by norm_num)⟩

/-! ## Claim C5 -/

/-- **C5** (amended): the first byte of an encoding determines the length via
its *trailing zero count* (`ctz`), not its popcount: for every `x` in
`[0, 2^64-1]`, the number of trailing zeros of the first byte of `encode (x)`
(with bit 8 set as a sentinel, exactly as `decode_size` computes it) equals
`bytes - 1`; the encoding is at least one byte long; when `x` needs 57 or
more significant bits (`2^56 ≤ x`) the encoding is the 9-byte form whose
first byte is zero; and `decode_size` determines the total byte count from
the first byte alone. -/
theorem claim_C5_varint_first_byte (x : Nat) (hx : x < 2 ^ 64) :
    ctz ((varint.encode x).headD 0 ||| 256) = (varint.encode x).length - 1 ∧
    1 ≤ (varint.encode x).length ∧
    (2 ^ 56 ≤ x → (varint.encode x).length = 9 ∧ (varint.encode x).headD 0 = 0) ∧
    varint.decode_size ((varint.encode x).headD 0) = (varint.encode x).length := by
  obtain ⟨hds, hlen⟩ := varint.decode_size_head x
  refine ⟨?_, hlen, ?_, hds⟩
  · have h1 := hds
    unfold varint.decode_size at h1
    omega
  · intro h56
    have hgt : varint.bitsOf x > 56 := (varint.bitsOf_gt_56_iff x).mpr h56
    rw [varint.encode_high hgt]
    refine ⟨?_, rfl⟩
    simp [varint.length_leBytes]

theorem claim_C5_varint_first_byte_witness :
    2 ^ 60 < 2 ^ 64 ∧
    (ctz ((varint.encode (2 ^ 60)).headD 0 ||| 256) = (varint.encode (2 ^ 60)).length - 1 ∧
      1 ≤ (varint.encode (2 ^ 60)).length ∧
      (2 ^ 56 ≤ 2 ^ 60 →
        (varint.encode (2 ^ 60)).length = 9 ∧ (varint.encode (2 ^ 60)).headD 0 = 0) ∧
      varint.decode_size ((varint.encode (2 ^ 60)).headD 0) = (varint.encode (2 ^ 60)).length) :=
  ⟨by norm_num, claim_C5_varint_first_byte (2 ^ 60) (by norm_num)⟩

/-- **C5** counterexample to the claim as literally stated: the length rule is
*not* `popcount (low bits of first byte) = bytes - 1`.  At `x = 16384` the
encoding is three bytes `[4, 0, 2]`: the popcount of the low
`bytes` bits of the first byte is 1 (and the popcount of the bits strictly
below the marker bit is 0), neither of which equals `bytes - 1 = 2`. -/
theorem claim_C5_varint_first_byte_counterexample :
    ¬ (pop_count ((varint.encode 16384).headD 0 % 2 ^ (varint.encode 16384).length)
        = (varint.encode 16384).length - 1) ∧
    ¬ (pop_count ((varint.encode 16384).headD 0 % 2 ^ ((varint.encode 16384).length - 1))
        = (varint.encode 16384).length - 1) := by
  decide

/-! ## Claim C2 -/

/-- **C2**: Branch lookup.  For every branch node with bitmap `B` and every
6-bit `hash_index` `k`: `lookup (k)` returns `not_found` when bit `k` of `B`
is clear; otherwise it returns the child stored at array index
`popcount (B & ((1 << k) - 1))` (which is a valid index when the children
array is packed, i.e. has `popcount (B)` entries); and the number of children
of a branch (`branch::size`) equals `popcount (B)`. -/
theorem claim_C2_branch_lookup (b : index.branch) (k : Nat) (hk : k < 64)
    (hlen : b.children.length = pop_count b.bitmap) :
    (b.bitmap.testBit k = false → b.lookup k = (0, index.not_found)) ∧
    (b.bitmap.testBit k = true →
      pop_count (b.bitmap % 2 ^ k) < b.children.length ∧
      b.lookup k = (b.children.getD (pop_count (b.bitmap % 2 ^ k)) 0,
                    pop_count (b.bitmap % 2 ^ k))) ∧
    b.size = pop_count b.bitmap := by
  have hshift : (1 : Nat) <<< k = 2 ^ k := by
    rw [Nat.shiftLeft_eq, Nat.one_mul]
  have hand := Nat.and_two_pow b.bitmap k
  have hmask : b.bitmap &&& (2 ^ k - 1) = b.bitmap % 2 ^ k :=
    Nat.and_pow_two_sub_one_eq_mod b.bitmap k
  refine ⟨?_, ?_, rfl⟩
  · intro hbit
    rw [hbit] at hand
    simp only [Bool.toNat_false, Nat.zero_mul] at hand
    simp only [index.branch.lookup, hshift, hand]
    simp
  · intro hbit
    rw [hbit] at hand
    simp only [Bool.toNat_true, Nat.one_mul] at hand
    refine ⟨hlen ▸ pop_count_mod_lt_of_testBit hbit, ?_⟩
    simp only [index.branch.lookup, hshift, hand, hmask]
    simp [(Nat.two_pow_pos k).ne']

theorem claim_C2_branch_lookup_witness :
    (2 : Nat) < 64 ∧ ((index.branch.mk 5 [10, 20]).children.length = pop_count 5) ∧
    (((5 : Nat).testBit 2 = false →
        (index.branch.mk 5 [10, 20]).lookup 2 = (0, index.not_found)) ∧
      ((5 : Nat).testBit 2 = true →
        pop_count (5 % 2 ^ 2) < (index.branch.mk 5 [10, 20]).children.length ∧
        (index.branch.mk 5 [10, 20]).lookup 2 =
          ((index.branch.mk 5 [10, 20]).children.getD (pop_count (5 % 2 ^ 2)) 0,
            pop_count (5 % 2 ^ 2))) ∧
      (index.branch.mk 5 [10, 20]).size = pop_count 5) :=
  ⟨by norm_num, by decide,
    claim_C2_branch_lookup (index.branch.mk 5 [10, 20]) 2 (by norm_num) (by decide)⟩

/-! ## Claim C10 -/

/-- **C10**: tagged-pointer round-trip.  For every heap pointer `p` whose two
low bits are clear (alignment), the `index_pointer` built from `p` (i.e. the
word `tag p`) satisfies `is_branch` and `is_heap`, and `untag` returns
exactly `p` — a heap-resident node is always tagged as an internal node,
never a leaf; and for every store address `a` with the heap bit clear,
`is_address` holds and `to_address` returns exactly `a`. -/
theorem claim_C10_index_pointer_roundtrip (p a : Nat) (hp : p < 2 ^ 64) (halign : p % 4 = 0) :
    index.index_pointer.is_branch (index.index_pointer.tag p) = true ∧
    index.index_pointer.is_heap (index.index_pointer.tag p) = true ∧
    index.index_pointer.untag (index.index_pointer.tag p) = p ∧
    (a &&& index.heap_bit = 0 →
      index.index_pointer.is_address a = true ∧ index.index_pointer.to_address a = a) := by
  have hp0 : p.testBit 0 = false := by
    rw [Nat.testBit_zero]
    simp only [decide_eq_false_iff_not]
    omega
  have hp1 : p.testBit 1 = false := by
    rw [Nat.testBit_succ, Nat.testBit_zero]
    simp only [decide_eq_false_iff_not]
    omega
  have htag0 : (index.index_pointer.tag p).testBit 0 = true := by
    unfold index.index_pointer.tag index.branch_bit index.heap_bit
    have h1 : (1 : Nat).testBit 0 = true := by decide
    simp [Nat.testBit_lor, h1]
  have htag1 : (index.index_pointer.tag p).testBit 1 = true := by
    unfold index.index_pointer.tag index.branch_bit index.heap_bit
    have h2 : (2 : Nat).testBit 1 = true := by decide
    simp [Nat.testBit_lor, h2]
  refine ⟨?_, ?_, ?_, ?_⟩
  · unfold index.index_pointer.is_branch index.branch_bit
    have h1 := Nat.and_two_pow (index.index_pointer.tag p) 0
    rw [htag0] at h1
    simp only [Bool.toNat_true, Nat.one_mul, Nat.pow_zero] at h1
    simp [h1]
  · unfold index.index_pointer.is_heap index.heap_bit
    have h1 := Nat.and_two_pow (index.index_pointer.tag p) 1
    rw [htag1] at h1
    simp only [Bool.toNat_true, Nat.one_mul] at h1
    have h2 : (2 : Nat) ^ 1 = 2 := by norm_num
    rw [h2] at h1
    simp [h1]
  · apply Nat.eq_of_testBit_eq
    intro i
    have hb1 : index.branch_bit = 2 ^ 0 := rfl
    have hb2 : index.heap_bit = 2 ^ 1 := rfl
    have hm : mask64 = 2 ^ 64 - 1 := rfl
    unfold index.index_pointer.untag index.index_pointer.tag
    rw [hb1, hb2, hm]
    simp only [Nat.testBit_land, Nat.testBit_lor, Nat.testBit_xor,
      Nat.testBit_two_pow_sub_one, Nat.testBit_two_pow]
    rcases Nat.lt_or_ge i 64 with h64 | h64
    · by_cases h0 : i = 0
      · subst h0
        simp [hp0]
      · by_cases h1 : i = 1
        · subst h1
          simp [hp1]
        · have h0' : ¬ (0 = i) := fun h => h0 h.symm
          have h1' : ¬ (1 = i) := fun h => h1 h.symm
          simp [h64, h0', h1']
    · have hpi : p.testBit i = false :=
        Nat.testBit_eq_false_of_lt
          (lt_of_lt_of_le hp (Nat.pow_le_pow_right (by norm_num) h64))
      have h0' : ¬ (0 = i) := by omega
      have h1' : ¬ (1 = i) := by omega
      simp [hpi, h0', h1', Nat.not_lt.mpr h64]
  · intro ha
    constructor
    · unfold index.index_pointer.is_address index.index_pointer.is_heap
      simp [ha]
    · rfl

/-! ## Claim C6 -/

theorem copyLoop_zero (regions : List (Nat × Nat)) :
    ∀ (fuel seg prev : Nat), storage.copyLoop regions fuel seg prev 0 = [] := by
  intro fuel seg prev
  cases fuel <;> simp [storage.copyLoop]

theorem regionFind_skip :
    ∀ (rs1 rs2 : List (Nat × Nat)) (x : Nat), (∀ r ∈ rs1, r.1 + r.2 ≤ x) →
      storage.regionFind (rs1 ++ rs2) x = storage.regionFind rs2 x := by
  intro rs1
  induction rs1 with
  | nil => intro rs2 x _; rfl
  | cons r rest ih =>
    intro rs2 x h
    obtain ⟨off, size⟩ := r
    have hr := h (off, size) (List.mem_cons_self _ _)
    simp only [List.cons_append, storage.regionFind]
    rw [if_neg (by simp only at hr; omega)]
    exact ih rs2 x fun r hr' => h r (List.mem_cons_of_mem _ hr')

theorem contig_offsets_ge :
    ∀ (rs : List (Nat × Nat)) (b e : Nat), storage.contig rs b e = true →
      ∀ r ∈ rs, b ≤ r.1 := by
  intro rs
  induction rs with
  | nil => intro b e _ r hr; cases hr
  | cons hd rest ih =>
    intro b e h r hr
    obtain ⟨off, size⟩ := hd
    simp only [storage.contig, Bool.and_eq_true, beq_iff_eq, decide_eq_true_eq] at h
    obtain ⟨⟨hoff, hsz⟩, hrest⟩ := h
    rcases List.mem_cons.mp hr with heq | hmem
    · subst heq; omega
    · have := ih (off + size) e hrest r hmem
      omega

theorem contig_head {rs : List (Nat × Nat)} {b e : Nat}
    (h : storage.contig rs b e = true) (hbe : b < e) :
    ∃ s rest, rs = (b, s) :: rest ∧ 0 < s ∧ storage.contig rest (b + s) e = true := by
  cases rs with
  | nil =>
    simp only [storage.contig, beq_iff_eq] at h
    omega
  | cons hd rest =>
    obtain ⟨off, size⟩ := hd
    simp only [storage.contig, Bool.and_eq_true, beq_iff_eq, decide_eq_true_eq] at h
    obtain ⟨⟨hoff, hsz⟩, hrest⟩ := h
    subst off
    exact ⟨size, rest, rfl, hsz, hrest⟩

/-- Locate `x` in a tiled region list: the containing region, a decomposition
of the list around it, and the fact that `regionFind` answers that region for
every byte it contains. -/
theorem contig_find :
    ∀ (rs : List (Nat × Nat)) (b e x : Nat), storage.contig rs b e = true →
      b ≤ x → x < e →
      ∃ off rsz rs1 rest,
        rs = rs1 ++ (off, rsz) :: rest ∧ off ≤ x ∧ x < off + rsz ∧ 0 < rsz ∧
        (∀ r ∈ rs1, r.1 + r.2 ≤ off) ∧
        storage.contig rest (off + rsz) e = true ∧
        (∀ y, off ≤ y → y < off + rsz → storage.regionFind rs y = some (off, rsz)) := by
  intro rs
  induction rs with
  | nil =>
    intro b e x h hb hx
    simp only [storage.contig, beq_iff_eq] at h
    omega
  | cons hd rest ih =>
    intro b e x h hb hx
    obtain ⟨off, size⟩ := hd
    simp only [storage.contig, Bool.and_eq_true, beq_iff_eq, decide_eq_true_eq] at h
    obtain ⟨⟨hoff, hsz⟩, hrest⟩ := h
    subst off
    by_cases hin : x < b + size
    · refine ⟨b, size, [], rest, by simp, hb, hin, hsz, by simp, hrest, ?_⟩
      intro y hy1 hy2
      simp only [storage.regionFind]
      rw [if_pos ⟨hy1, hy2⟩]
    · have hge : b + size ≤ x := Nat.not_lt.mp hin
      obtain ⟨off2, rsz2, rs1', rest', hsplit, h1, h2, h3, h4, h5, h6⟩ :=
        ih (b + size) e x hrest hge hx
      have hoffge : b + size ≤ off2 := by
        have := contig_offsets_ge rest (b + size) e hrest (off2, rsz2)
          (by rw [hsplit]; exact List.mem_append_right _ (List.mem_cons_self _ _))
        exact this
      refine ⟨off2, rsz2, (b, size) :: rs1', rest', by rw [hsplit]; rfl, h1, h2, h3, ?_, h5, ?_⟩
      · intro r hr
        rcases List.mem_cons.mp hr with heq | hmem
        · subst heq; exact hoffge
        · exact h4 r hmem
      · intro y hy1 hy2
        simp only [storage.regionFind]
        rw [if_neg (by omega)]
        exact h6 y hy1 hy2

/-- No region boundary lies strictly inside a byte range contained in a
single region. -/
theorem count_zero {regions rs1 rest : List (Nat × Nat)} {off rsz a n e : Nat}
    (hsplit : regions = rs1 ++ (off, rsz) :: rest)
    (hrs1 : ∀ r ∈ rs1, r.1 + r.2 ≤ off)
    (hrest : storage.contig rest (off + rsz) e = true)
    (ha : off ≤ a) (hn : a + n ≤ off + rsz) :
    storage.boundariesCrossed regions a n = 0 := by
  unfold storage.boundariesCrossed
  rw [List.length_eq_zero, List.filter_eq_nil_iff]
  intro r hr
  rw [hsplit] at hr
  simp only [decide_eq_true_eq, not_and, Nat.not_lt]
  rcases List.mem_append.mp hr with h1 | h2
  · have := hrs1 r h1
    omega
  · rcases List.mem_cons.mp h2 with heq | hmem
    · subst heq; omega
    · have := contig_offsets_ge rest (off + rsz) e hrest r hmem
      omega

/-- Crossing the boundary at `off + rsz` contributes exactly one extra region
boundary to the count. -/
theorem count_step {regions rs1 rest : List (Nat × Nat)} {off rsz a n e : Nat}
    (hsplit : regions = rs1 ++ (off, rsz) :: rest)
    (hrs1 : ∀ r ∈ rs1, r.1 + r.2 ≤ off)
    (hrest : storage.contig rest (off + rsz) e = true)
    (ha : off ≤ a) (h2 : a < off + rsz) (h3 : off + rsz < a + n) (h4 : a + n ≤ e) :
    storage.boundariesCrossed regions a n =
      storage.boundariesCrossed regions (off + rsz) (a + n - (off + rsz)) + 1 := by
  obtain ⟨s', rest', hrw, hs', hrest'⟩ := contig_head hrest (by omega)
  have hsum : off + rsz + (a + n - (off + rsz)) = a + n := by omega
  unfold storage.boundariesCrossed
  rw [hsum, hsplit, hrw]
  rw [List.filter_append, List.filter_append, List.length_append, List.length_append]
  have hnil1 : ∀ (lo : Nat), off ≤ lo →
      (rs1.filter fun r => decide (lo < r.1 ∧ r.1 < a + n)).length = 0 := by
    intro lo hlo
    rw [List.length_eq_zero, List.filter_eq_nil_iff]
    intro r hr
    have := hrs1 r hr
    simp only [decide_eq_true_eq, not_and, Nat.not_lt]
    omega
  rw [hnil1 a ha, hnil1 (off + rsz) (by omega)]
  simp only [List.filter_cons]
  rw [if_neg (by simp only [decide_eq_true_eq, not_and, Nat.not_lt]; omega)]
  rw [if_pos (by simp only [decide_eq_true_eq]; omega)]
  rw [if_neg (by simp only [decide_eq_true_eq, not_and, Nat.not_lt]; omega)]
  rw [if_neg (by simp only [decide_eq_true_eq, not_and, Nat.not_lt]; omega)]
  have hcong : (rest'.filter fun r => decide (a < r.1 ∧ r.1 < a + n)) =
      (rest'.filter fun r => decide (off + rsz < r.1 ∧ r.1 < a + n)) := by
    apply List.filter_congr
    intro r hr
    have := contig_offsets_ge rest' (off + rsz + s') e hrest' r hr
    have hiff : (a < r.1 ∧ r.1 < a + n) ↔ (off + rsz < r.1 ∧ r.1 < a + n) := by omega
    exact decide_eq_decide.mpr hiff
  rw [hcong]
  simp

/-- The copy loop emits, for the byte range `[pos, pos + sz)` beginning at a
region boundary, a chunk per visited region: chunks are consecutive, total
`sz` bytes, number one more than the boundaries crossed, and each is maximal
for its region. -/
theorem copyLoop_spec {regions : List (Nat × Nat)} {e : Nat} :
    ∀ (rs2 rs1 : List (Nat × Nat)) (fuel sz seg prev pos : Nat),
      regions = rs1 ++ rs2 →
      (∀ r ∈ rs1, r.1 + r.2 ≤ pos) →
      storage.contig rs2 pos e = true →
      storage.alignedRegions regions = true →
      pos % storage.segment_size = 0 →
      seg + (prev + storage.segment_size - 1) / storage.segment_size
        = pos / storage.segment_size →
      sz ≤ fuel → 0 < sz → pos + sz ≤ e →
      storage.chunksContiguousFrom pos (storage.copyLoop regions fuel seg prev sz) = true ∧
      storage.sumLens (storage.copyLoop regions fuel seg prev sz) = sz ∧
      (storage.copyLoop regions fuel seg prev sz).length
        = storage.boundariesCrossed regions pos sz + 1 ∧
      (storage.copyLoop regions fuel seg prev sz).all
        (storage.chunkMaximal regions (pos + sz)) = true := by
  intro rs2
  induction rs2 with
  | nil =>
    intro rs1 fuel sz seg prev pos _ _ hcontig _ _ _ _ hsz hend
    simp only [storage.contig, beq_iff_eq] at hcontig
    omega
  | cons hd rest ih =>
    intro rs1 fuel sz seg prev pos hsplit hrs1 hcontig halign hpos hseg hfuel hsz hend
    obtain ⟨off, rsz⟩ := hd
    simp only [storage.contig, Bool.and_eq_true, beq_iff_eq, decide_eq_true_eq] at hcontig
    obtain ⟨⟨hoff, hrszpos⟩, hrest⟩ := hcontig
    subst off
    cases fuel with
    | zero => omega
    | succ f =>
      have hS : storage.segment_size = 4194304 := rfl
      have hseg' : (seg + (prev + storage.segment_size - 1) / storage.segment_size)
          * storage.segment_size = pos := by
        rw [hseg]
        rw [hS] at hpos ⊢
        omega
      have hfind : storage.regionFind regions pos = some (pos, rsz) := by
        rw [hsplit, regionFind_skip rs1 _ pos hrs1]
        simp only [storage.regionFind]
        rw [if_pos ⟨le_rfl, by omega⟩]
      have hmem : (pos, rsz) ∈ regions := by
        rw [hsplit]; exact List.mem_append_right _ (List.mem_cons_self _ _)
      have halig := (List.all_eq_true.mp halign) (pos, rsz) hmem
      simp only [Bool.and_eq_true, beq_iff_eq] at halig
      obtain ⟨hposS, hrszS⟩ := halig
      simp only [storage.copyLoop, if_neg (by omega : ¬ sz = 0), hseg', hfind]
      by_cases hfit : sz ≤ rsz
      · have hmin : min sz rsz = sz := by omega
        rw [hmin]
        have hzero : sz - sz = 0 := by omega
        rw [hzero, copyLoop_zero]
        refine ⟨?_, ?_, ?_, ?_⟩
        · simp [storage.chunksContiguousFrom]
        · simp [storage.sumLens]
        · rw [count_zero hsplit hrs1 hrest le_rfl (by omega)]
          rfl
        · simp only [List.all_cons, List.all_nil, Bool.and_true]
          unfold storage.chunkMaximal
          rw [hfind]
          simp only [beq_iff_eq]
          omega
      · have hmin : min sz rsz = rsz := by omega
        rw [hmin]
        have hstep := ih ((rs1 ++ [(pos, rsz)])) f (sz - rsz)
          (seg + (prev + storage.segment_size - 1) / storage.segment_size) rsz (pos + rsz)
          (by rw [hsplit, List.append_assoc]; rfl)
          (by intro r hr
              rcases List.mem_append.mp hr with h1 | h2
              · have := hrs1 r h1; omega
              · rcases List.mem_cons.mp h2 with heq | hmem2
                · subst heq; omega
                · cases hmem2)
          hrest halign
          (by rw [hS] at hposS hrszS ⊢; omega)
          (by rw [hseg]
              rw [hS] at hposS hrszS ⊢
              omega)
          (by omega) (by omega) (by omega)
        obtain ⟨hc1, hc2, hc3, hc4⟩ := hstep
        have hposend : pos + rsz + (sz - rsz) = pos + sz := by omega
        rw [hposend] at hc4
        refine ⟨?_, ?_, ?_, ?_⟩
        · simp only [storage.chunksContiguousFrom, Bool.and_eq_true, beq_iff_eq]
          exact ⟨by trivial, hc1⟩
        · simp only [storage.sumLens, List.map_cons, List.sum_cons] at hc2 ⊢
          omega
        · simp only [List.length_cons, hc3]
          rw [count_step hsplit hrs1 hrest le_rfl (by omega) (by omega) (by omega)]
          have heq2 : pos + sz - (pos + rsz) = sz - rsz := by omega
          rw [heq2]
        · simp only [List.all_cons, hc4, Bool.and_true]
          unfold storage.chunkMaximal
          rw [hfind]
          simp only [beq_iff_eq]
          omega

/-- **C6**: spanning copy.  For every address `a` and size `n > 0` within the
mapped range, `storage::copy` invokes the copier exactly `k + 1` times where
`k` is the number of region boundaries strictly inside `[a, a + n)`; the
chunks are consecutive in store order starting at `a`, total exactly `n`
bytes, and each covers a maximal per-region extent. -/
theorem claim_C6_spanning_copy (regions : List (Nat × Nat)) (e a n : Nat)
    (hreg : storage.contig regions 0 e = true)
    (halign : storage.alignedRegions regions = true)
    (hn : 0 < n) (hend : a + n ≤ e) :
    (storage.copy regions a n).length = storage.boundariesCrossed regions a n + 1 ∧
    storage.chunksContiguousFrom a (storage.copy regions a n) = true ∧
    storage.sumLens (storage.copy regions a n) = n ∧
    (storage.copy regions a n).all (storage.chunkMaximal regions (a + n)) = true := by
  have hS : storage.segment_size = 4194304 := rfl
  obtain ⟨off, rsz, rs1, rest, hsplit, h1, h2, h3, h4, h5, h6⟩ :=
    contig_find regions 0 e a hreg (Nat.zero_le a) (by omega)
  have hmem : (off, rsz) ∈ regions := by
    rw [hsplit]; exact List.mem_append_right _ (List.mem_cons_self _ _)
  have halig := (List.all_eq_true.mp halign) (off, rsz) hmem
  simp only [Bool.and_eq_true, beq_iff_eq] at halig
  obtain ⟨hoffS, hrszS⟩ := halig
  have hsegbase : off ≤ a / storage.segment_size * storage.segment_size ∧
      a / storage.segment_size * storage.segment_size < off + rsz := by
    rw [hS] at hoffS hrszS ⊢
    constructor <;> omega
  have hfind0 : storage.regionFind regions
      (a / storage.segment_size * storage.segment_size) = some (off, rsz) :=
    h6 _ hsegbase.1 hsegbase.2
  have hfinda : storage.regionFind regions a = some (off, rsz) := h6 a h1 h2
  simp only [storage.copy, hfind0]
  by_cases hfit : n ≤ rsz - (a - off)
  · have hmin : min (rsz - (a - off)) n = n := by omega
    rw [hmin]
    have hzero : n - n = 0 := by omega
    rw [hzero, copyLoop_zero]
    refine ⟨?_, ?_, ?_, ?_⟩
    · rw [count_zero hsplit h4 h5 h1 (by omega)]
      rfl
    · simp [storage.chunksContiguousFrom]
    · simp [storage.sumLens]
    · simp only [List.all_cons, List.all_nil, Bool.and_true]
      unfold storage.chunkMaximal
      rw [hfinda]
      simp only [beq_iff_eq]
      omega
  · have hmin : min (rsz - (a - off)) n = rsz - (a - off) := by omega
    rw [hmin]
    obtain ⟨hc1, hc2, hc3, hc4⟩ := copyLoop_spec (e := e) rest (rs1 ++ [(off, rsz)])
      n (n - (rsz - (a - off))) (a / storage.segment_size) (rsz - (a - off)) (off + rsz)
      (by rw [hsplit, List.append_assoc]; rfl)
      (by intro r hr
          rcases List.mem_append.mp hr with hh1 | hh2
          · have := h4 r hh1; omega
          · rcases List.mem_cons.mp hh2 with heq | hmem2
            · subst heq; omega
            · cases hmem2)
      h5 halign
      (by rw [hS] at hoffS hrszS ⊢; omega)
      (by rw [hS] at hoffS hrszS ⊢; omega)
      (by omega) (by omega) (by omega)
    have hposend : off + rsz + (n - (rsz - (a - off))) = a + n := by omega
    rw [hposend] at hc4
    refine ⟨?_, ?_, ?_, ?_⟩
    · simp only [List.length_cons, hc3]
      rw [count_step hsplit h4 h5 h1 h2 (by omega) hend]
      have heq2 : a + n - (off + rsz) = n - (rsz - (a - off)) := by omega
      rw [heq2]
    · simp only [storage.chunksContiguousFrom, Bool.and_eq_true, beq_iff_eq]
      refine ⟨by trivial, ?_⟩
      have heq2 : a + (rsz - (a - off)) = off + rsz := by omega
      rw [heq2]
      exact hc1
    · simp only [storage.sumLens, List.map_cons, List.sum_cons] at hc2 ⊢
      omega
    · simp only [List.all_cons, hc4, Bool.and_true]
      unfold storage.chunkMaximal
      rw [hfinda]
      simp only [beq_iff_eq]
      omega

theorem claim_C6_spanning_copy_witness :
    storage.contig [(0, 4194304), (4194304, 4194304)] 0 8388608 = true ∧
    storage.alignedRegions [(0, 4194304), (4194304, 4194304)] = true ∧
    (0 : Nat) < 8 ∧ (4194300 : Nat) + 8 ≤ 8388608 ∧
    ((storage.copy [(0, 4194304), (4194304, 4194304)] 4194300 8).length
        = storage.boundariesCrossed [(0, 4194304), (4194304, 4194304)] 4194300 8 + 1 ∧
      storage.chunksContiguousFrom 4194300
        (storage.copy [(0, 4194304), (4194304, 4194304)] 4194300 8) = true ∧
      storage.sumLens (storage.copy [(0, 4194304), (4194304, 4194304)] 4194300 8) = 8 ∧
      (storage.copy [(0, 4194304), (4194304, 4194304)] 4194300 8).all
        (storage.chunkMaximal [(0, 4194304), (4194304, 4194304)] (4194300 + 8)) = true) :=
  ⟨by decide, by decide, by decide, by decide,
    claim_C6_spanning_copy [(0, 4194304), (4194304, 4194304)] 8388608 4194300 8
      (by decide) (by decide) (by decide) (by decide)⟩

/-! ## Claim C7 -/

namespace storage

theorem contig_le : ∀ (rs : List (Nat × Nat)) (b e : Nat), contig rs b e = true → b ≤ e := by
  intro rs
  induction rs with
  | nil =>
    intro b e h
    simp only [contig, beq_iff_eq] at h
    omega
  | cons hd rest ih =>
    intro b e h
    obtain ⟨off, size⟩ := hd
    simp only [contig, Bool.and_eq_true, beq_iff_eq, decide_eq_true_eq] at h
    obtain ⟨⟨hoff, hsz⟩, hrest⟩ := h
    have := ih (off + size) e hrest
    omega

theorem contig_ends_le : ∀ (rs : List (Nat × Nat)) (b e : Nat), contig rs b e = true →
    ∀ r ∈ rs, r.1 + r.2 ≤ e := by
  intro rs
  induction rs with
  | nil => intro b e _ r hr; cases hr
  | cons hd rest ih =>
    intro b e h r hr
    obtain ⟨off, size⟩ := hd
    simp only [contig, Bool.and_eq_true, beq_iff_eq, decide_eq_true_eq] at h
    obtain ⟨⟨hoff, hsz⟩, hrest⟩ := h
    rcases List.mem_cons.mp hr with heq | hmem
    · subst heq
      exact contig_le rest (off + size) e hrest
    · exact ih (off + size) e hrest r hmem

theorem contig_append : ∀ (l1 l2 : List (Nat × Nat)) (b m e : Nat),
    contig l1 b m = true → contig l2 m e = true → contig (l1 ++ l2) b e = true := by
  intro l1
  induction l1 with
  | nil =>
    intro l2 b m e h1 h2
    simp only [contig, beq_iff_eq] at h1
    subst h1
    exact h2
  | cons hd rest ih =>
    intro l2 b m e h1 h2
    obtain ⟨off, size⟩ := hd
    simp only [contig, Bool.and_eq_true, beq_iff_eq, decide_eq_true_eq] at h1
    obtain ⟨⟨hoff, hsz⟩, hrest⟩ := h1
    simp only [List.cons_append, contig, Bool.and_eq_true, beq_iff_eq, decide_eq_true_eq]
    exact ⟨⟨hoff, hsz⟩, ih l2 (off + size) m e hrest h2⟩

theorem endOf_cons_cons (a b : Nat × Nat) (t : List (Nat × Nat)) :
    endOf (a :: b :: t) = endOf (b :: t) := rfl

theorem contig_last : ∀ (rs : List (Nat × Nat)) (b e : Nat), rs ≠ [] →
    contig rs b e = true → endOf rs = e := by
  intro rs
  induction rs with
  | nil => intro b e hne _; exact absurd rfl hne
  | cons hd rest ih =>
    intro b e _ h
    obtain ⟨off, size⟩ := hd
    simp only [contig, Bool.and_eq_true, beq_iff_eq, decide_eq_true_eq] at h
    obtain ⟨⟨hoff, hsz⟩, hrest⟩ := h
    cases rest with
    | nil =>
      simp only [contig, beq_iff_eq] at hrest
      simp only [endOf, List.getLast?_singleton]
      exact hrest
    | cons hd2 t2 =>
      rw [endOf_cons_cons]
      exact ih (off + size) e (by simp) hrest

theorem contigRev_mem_lt : ∀ (rl : List (Nat × Nat)) (b e : Nat),
    contigRev rl b e = true → ∀ r ∈ rl, r.1 < e := by
  intro rl
  induction rl with
  | nil => intro b e _ r hr; cases hr
  | cons hd rest ih =>
    intro b e h r hr
    obtain ⟨off, size⟩ := hd
    simp only [contigRev, Bool.and_eq_true, beq_iff_eq, decide_eq_true_eq] at h
    obtain ⟨⟨hoe, hsz⟩, hrest⟩ := h
    rcases List.mem_cons.mp hr with heq | hmem
    · subst heq; simp only; omega
    · have := ih b off hrest r hmem
      omega

theorem contigRev_snoc : ∀ (l : List (Nat × Nat)) (off size b e : Nat),
    contigRev (l ++ [(off, size)]) b e = true ↔
      (off = b ∧ 0 < size ∧ contigRev l (off + size) e = true) := by
  intro l
  induction l with
  | nil =>
    intro off size b e
    simp only [List.nil_append, contigRev, Bool.and_eq_true, beq_iff_eq,
      decide_eq_true_eq]
    constructor
    · rintro ⟨⟨h1, h2⟩, h3⟩
      exact ⟨h3.symm, h2, h1⟩
    · rintro ⟨h1, h2, h3⟩
      exact ⟨⟨h3, h2⟩, h1.symm⟩
  | cons hd t ih =>
    intro off size b e
    obtain ⟨o2, s2⟩ := hd
    simp only [List.cons_append, contigRev, Bool.and_eq_true, beq_iff_eq,
      decide_eq_true_eq]
    constructor
    · rintro ⟨⟨h1, h2⟩, h3⟩
      obtain ⟨h4, h5, h6⟩ := (ih off size b o2).mp h3
      exact ⟨h4, h5, ⟨h1, h2⟩, h6⟩
    · rintro ⟨h4, h5, ⟨h1, h2⟩, h6⟩
      exact ⟨⟨h1, h2⟩, (ih off size b o2).mpr ⟨h4, h5, h6⟩⟩

theorem contig_to_contigRev : ∀ (rs : List (Nat × Nat)) (b e : Nat),
    contig rs b e = true → contigRev rs.reverse b e = true := by
  intro rs
  induction rs with
  | nil =>
    intro b e h
    simp only [contig] at h
    simpa [contigRev] using h
  | cons hd rest ih =>
    intro b e h
    obtain ⟨off, size⟩ := hd
    simp only [contig, Bool.and_eq_true, beq_iff_eq, decide_eq_true_eq] at h
    obtain ⟨⟨hoff, hsz⟩, hrest⟩ := h
    simp only [List.reverse_cons]
    exact (contigRev_snoc _ _ _ _ _).mpr ⟨hoff, hsz, ih (off + size) e hrest⟩

theorem regionFind_mem : ∀ (rs : List (Nat × Nat)) (x : Nat) (r : Nat × Nat),
    regionFind rs x = some r → r ∈ rs ∧ r.1 ≤ x ∧ x < r.1 + r.2 := by
  intro rs
  induction rs with
  | nil => intro x r h; simp [regionFind] at h
  | cons hd rest ih =>
    intro x r h
    obtain ⟨off, size⟩ := hd
    by_cases hin : off ≤ x ∧ x < off + size
    · simp only [regionFind, if_pos hin, Option.some.injEq] at h
      subst h
      exact ⟨List.mem_cons_self _ _, hin.1, hin.2⟩
    · simp only [regionFind, if_neg hin] at h
      obtain ⟨hm, h1, h2⟩ := ih x r h
      exact ⟨List.mem_cons_of_mem _ hm, h1, h2⟩

theorem regionFind_eq_none_of : ∀ (rs : List (Nat × Nat)) (x : Nat),
    (∀ r ∈ rs, ¬ (r.1 ≤ x ∧ x < r.1 + r.2)) → regionFind rs x = none := by
  intro rs
  induction rs with
  | nil => intro x _; rfl
  | cons hd rest ih =>
    intro x h
    obtain ⟨off, size⟩ := hd
    have hhd := h (off, size) (List.mem_cons_self _ _)
    simp only [regionFind, if_neg hhd]
    exact ih x fun r hr => h r (List.mem_cons_of_mem _ hr)

theorem regionFind_isSome_of_mem : ∀ (rs : List (Nat × Nat)) (x : Nat) (r : Nat × Nat),
    r ∈ rs → r.1 ≤ x → x < r.1 + r.2 → (regionFind rs x).isSome = true := by
  intro rs
  induction rs with
  | nil => intro x r hr; cases hr
  | cons hd rest ih =>
    intro x r hr h1 h2
    obtain ⟨off, size⟩ := hd
    by_cases hin : off ≤ x ∧ x < off + size
    · simp [regionFind, if_pos hin]
    · simp only [regionFind, if_neg hin]
      rcases List.mem_cons.mp hr with heq | hmem
      · subst heq; exact absurd ⟨h1, h2⟩ hin
      · exact ih x r hmem h1 h2

theorem regionFind_append_eq : ∀ (l1 l2 : List (Nat × Nat)) (x : Nat),
    regionFind (l1 ++ l2) x
      = match regionFind l1 x with
        | some r => some r
        | none => regionFind l2 x := by
  intro l1
  induction l1 with
  | nil => intro l2 x; rfl
  | cons hd rest ih =>
    intro l2 x
    obtain ⟨off, size⟩ := hd
    by_cases hin : off ≤ x ∧ x < off + size
    · simp only [List.cons_append, regionFind, if_pos hin]
    · simp only [List.cons_append, regionFind, if_neg hin]
      exact ih l2 x

theorem contig_disjoint : ∀ (rs : List (Nat × Nat)) (b e x : Nat),
    contig rs b e = true → ∀ r1 ∈ rs, ∀ r2 ∈ rs,
      r1.1 ≤ x → x < r1.1 + r1.2 → r2.1 ≤ x → x < r2.1 + r2.2 → r1 = r2 := by
  intro rs
  induction rs with
  | nil => intro b e x _ r1 hr1; cases hr1
  | cons hd rest ih =>
    intro b e x h r1 hr1 r2 hr2 h11 h12 h21 h22
    obtain ⟨off, size⟩ := hd
    simp only [contig, Bool.and_eq_true, beq_iff_eq, decide_eq_true_eq] at h
    obtain ⟨⟨hoff, hsz⟩, hrest⟩ := h
    have hrest_ge := contig_offsets_ge rest (off + size) e hrest
    rcases List.mem_cons.mp hr1 with heq1 | hmem1
    · rcases List.mem_cons.mp hr2 with heq2 | hmem2
      · rw [heq1, heq2]
      · subst heq1
        have := hrest_ge r2 hmem2
        simp only at h11 h12
        omega
    · rcases List.mem_cons.mp hr2 with heq2 | hmem2
      · subst heq2
        have := hrest_ge r1 hmem1
        simp only at h21 h22
        omega
      · exact ih (off + size) e x hrest r1 hmem1 r2 hmem2 h11 h12 h21 h22

theorem aligned_mem {rs : List (Nat × Nat)} (h : alignedRegions rs = true) :
    ∀ r ∈ rs, r.1 % segment_size = 0 ∧ r.2 % segment_size = 0 := by
  intro r hr
  have := (List.all_eq_true.mp h) r hr
  simp only [Bool.and_eq_true, beq_iff_eq] at this
  exact this

theorem contig_split_at (new : Nat) : ∀ (rs : List (Nat × Nat)) (b e : Nat),
    contig rs b e = true →
    ∃ l1 l2, rs = l1 ++ l2 ∧ l1 = rs.filter (fun r => decide (r.1 < new)) ∧
      (∀ r ∈ l2, new ≤ r.1) := by
  intro rs
  induction rs with
  | nil => intro b e _; exact ⟨[], [], rfl, rfl, fun r hr => absurd hr (List.not_mem_nil r)⟩
  | cons hd rest ih =>
    intro b e h
    obtain ⟨off, size⟩ := hd
    simp only [contig, Bool.and_eq_true, beq_iff_eq, decide_eq_true_eq] at h
    obtain ⟨⟨hoff, hsz⟩, hrest⟩ := h
    by_cases hlt : off < new
    · obtain ⟨l1, l2, hsplit, hfil, hge⟩ := ih (off + size) e hrest
      refine ⟨(off, size) :: l1, l2, by rw [hsplit]; rfl, ?_, hge⟩
      rw [List.filter_cons_of_pos (by simpa using hlt), hfil]
    · refine ⟨[], (off, size) :: rest, rfl, ?_, ?_⟩
      · rw [List.filter_cons_of_neg (by simpa using hlt)]
        symm
        rw [List.filter_eq_nil_iff]
        intro r hr
        have h1 := contig_offsets_ge rest (off + size) e hrest r hr
        simp only [decide_eq_true_eq]
        omega
      · intro r hr
        rcases List.mem_cons.mp hr with heq | hmem
        · subst heq; omega
        · have := contig_offsets_ge rest (off + size) e hrest r hmem
          omega

theorem contig_filter_exists (new : Nat) : ∀ (rs : List (Nat × Nat)) (b e : Nat),
    contig rs b e = true →
    ∃ m, contig (rs.filter fun r => decide (r.1 < new)) b m = true := by
  intro rs
  induction rs with
  | nil => intro b e _; exact ⟨b, by simp [contig]⟩
  | cons hd rest ih =>
    intro b e h
    obtain ⟨off, size⟩ := hd
    simp only [contig, Bool.and_eq_true, beq_iff_eq, decide_eq_true_eq] at h
    obtain ⟨⟨hoff, hsz⟩, hrest⟩ := h
    by_cases hlt : off < new
    · obtain ⟨m, hm⟩ := ih (off + size) e hrest
      refine ⟨m, ?_⟩
      rw [List.filter_cons_of_pos (by simpa using hlt)]
      simp only [contig, Bool.and_eq_true, beq_iff_eq, decide_eq_true_eq]
      exact ⟨⟨hoff, hsz⟩, hm⟩
    · refine ⟨b, ?_⟩
      rw [List.filter_cons_of_neg (by simpa using hlt)]
      have hnil : rest.filter (fun r => decide (r.1 < new)) = [] := by
        rw [List.filter_eq_nil_iff]
        intro r hr
        have := contig_offsets_ge rest (off + size) e hrest r hr
        simp only [decide_eq_true_eq]
        omega
      rw [hnil]
      simp [contig]

/-- Segment-range membership versus byte-range membership, for an aligned
region. -/
theorem seg_range_iff {off size sg : Nat} (ho : off % segment_size = 0)
    (hs : size % segment_size = 0) :
    (off / segment_size ≤ sg ∧ sg < off / segment_size + size / segment_size) ↔
      (off ≤ sg * segment_size ∧ sg * segment_size < off + size) := by
  have hS : segment_size = 4194304 := rfl
  rw [hS] at ho hs ⊢
  omega

theorem shrinkLoop_regions (new : Nat) : ∀ (rl : List (Nat × Nat)) (b e : Nat)
    (sat : Nat → Option (Nat × Nat)), contigRev rl b e = true →
    (shrinkLoop rl sat new).1 = rl.filter (fun r => decide (r.1 < new)) := by
  intro rl
  induction rl with
  | nil => intro b e sat _; rfl
  | cons hd rest ih =>
    intro b e sat h
    obtain ⟨off, size⟩ := hd
    simp only [contigRev, Bool.and_eq_true, beq_iff_eq, decide_eq_true_eq] at h
    obtain ⟨⟨hoe, hsz⟩, hrest⟩ := h
    by_cases hlt : off < new
    · simp only [shrinkLoop, if_pos hlt]
      rw [List.filter_cons_of_pos (by simpa using hlt)]
      have hall : rest.filter (fun r => decide (r.1 < new)) = rest := by
        rw [List.filter_eq_self]
        intro r hr
        have := contigRev_mem_lt rest b off hrest r hr
        simp only [decide_eq_true_eq]
        omega
      rw [hall]
    · simp only [shrinkLoop, if_neg hlt]
      rw [List.filter_cons_of_neg (by simpa using hlt)]
      exact ih b off _ hrest

theorem shrinkLoop_none_mono (new : Nat) : ∀ (rl : List (Nat × Nat))
    (sat : Nat → Option (Nat × Nat)) (sg : Nat), sat sg = none →
    (shrinkLoop rl sat new).2 sg = none := by
  intro rl
  induction rl with
  | nil => intro sat sg h; exact h
  | cons hd rest ih =>
    intro sat sg h
    obtain ⟨off, size⟩ := hd
    by_cases hlt : off < new
    · simp only [shrinkLoop, if_pos hlt]
      exact h
    · simp only [shrinkLoop, if_neg hlt]
      refine ih _ sg ?_
      simp only [satSet]
      split
      · rfl
      · exact h

theorem shrinkLoop_sat_null (new : Nat) : ∀ (rl : List (Nat × Nat)) (b e : Nat)
    (sat : Nat → Option (Nat × Nat)), contigRev rl b e = true →
    ∀ r ∈ rl, new ≤ r.1 →
    ∀ sg, r.1 / segment_size ≤ sg → sg < r.1 / segment_size + r.2 / segment_size →
    (shrinkLoop rl sat new).2 sg = none := by
  intro rl
  induction rl with
  | nil => intro b e sat _ r hr; cases hr
  | cons hd rest ih =>
    intro b e sat h r hr hge sg hsg1 hsg2
    obtain ⟨off, size⟩ := hd
    simp only [contigRev, Bool.and_eq_true, beq_iff_eq, decide_eq_true_eq] at h
    obtain ⟨⟨hoe, hsz⟩, hrest⟩ := h
    by_cases hlt : off < new
    · rcases List.mem_cons.mp hr with heq | hmem
      · subst heq; simp only at hge; omega
      · have := contigRev_mem_lt rest b off hrest r hmem
        omega
    · simp only [shrinkLoop, if_neg hlt]
      rcases List.mem_cons.mp hr with heq | hmem
      · subst heq
        refine shrinkLoop_none_mono new rest _ sg ?_
        simp only at hsg1 hsg2
        simp only [satSet]
        exact if_pos ⟨hsg1, hsg2⟩
      · exact ih b off _ hrest r hmem hge sg hsg1 hsg2

theorem shrinkLoop_sat_keep (new : Nat) : ∀ (rl : List (Nat × Nat))
    (sat : Nat → Option (Nat × Nat)) (sg : Nat),
    (∀ r ∈ rl, new ≤ r.1 →
      ¬ (r.1 / segment_size ≤ sg ∧ sg < r.1 / segment_size + r.2 / segment_size)) →
    (shrinkLoop rl sat new).2 sg = sat sg := by
  intro rl
  induction rl with
  | nil => intro sat sg _; rfl
  | cons hd rest ih =>
    intro sat sg h
    obtain ⟨off, size⟩ := hd
    by_cases hlt : off < new
    · simp only [shrinkLoop, if_pos hlt]
    · simp only [shrinkLoop, if_neg hlt]
      rw [ih _ sg fun r hr => h r (List.mem_cons_of_mem _ hr)]
      have hhd := h (off, size) (List.mem_cons_self _ _) (by omega)
      simp only [satSet, if_neg hhd]

theorem shrink_regions_eq {s : State} (h : contig s.regions 0 (endOf s.regions) = true)
    (new : Nat) :
    (shrink s new).regions = s.regions.filter (fun r => decide (r.1 < new)) := by
  show (shrinkLoop s.regions.reverse s.sat new).1.reverse = _
  rw [shrinkLoop_regions new _ 0 (endOf s.regions) _ (contig_to_contigRev _ _ _ h),
    List.filter_reverse, List.reverse_reverse]

theorem shrink_sat_null {s : State} (h : contig s.regions 0 (endOf s.regions) = true)
    (new : Nat) :
    ∀ r ∈ s.regions, new ≤ r.1 →
    ∀ sg, r.1 / segment_size ≤ sg → sg < r.1 / segment_size + r.2 / segment_size →
    (shrink s new).sat sg = none := by
  intro r hr hge sg h1 h2
  exact shrinkLoop_sat_null new _ 0 (endOf s.regions) _ (contig_to_contigRev _ _ _ h)
    r (List.mem_reverse.mpr hr) hge sg h1 h2

theorem shrink_sat_keep (s : State) (new : Nat) :
    ∀ sg, (∀ r ∈ s.regions, new ≤ r.1 →
      ¬ (r.1 / segment_size ≤ sg ∧ sg < r.1 / segment_size + r.2 / segment_size)) →
    (shrink s new).sat sg = s.sat sg := by
  intro sg h
  exact shrinkLoop_sat_keep new _ _ sg fun r hr => h r (List.mem_reverse.mp hr)

theorem contig_endOf_of {rs : List (Nat × Nat)} {m : Nat} (h : contig rs 0 m = true) :
    contig rs 0 (endOf rs) = true := by
  by_cases hne : rs = []
  · subst hne; rfl
  · rw [contig_last rs 0 m hne h]; exact h

theorem aligned_filter {rs : List (Nat × Nat)} (h : alignedRegions rs = true)
    (p : Nat × Nat → Bool) : alignedRegions (rs.filter p) = true := by
  simp only [alignedRegions, List.all_eq_true] at h ⊢
  intro r hr
  exact h r (List.mem_of_mem_filter hr)

theorem aligned_append {l1 l2 : List (Nat × Nat)} (h1 : alignedRegions l1 = true)
    (h2 : alignedRegions l2 = true) : alignedRegions (l1 ++ l2) = true := by
  simp only [alignedRegions, List.all_append, Bool.and_eq_true]
  exact ⟨h1, h2⟩

theorem aligned_endOf : ∀ (rs : List (Nat × Nat)), alignedRegions rs = true →
    endOf rs % segment_size = 0 := by
  intro rs
  induction rs with
  | nil => intro _; decide
  | cons a t ih =>
    intro h
    have hmem := aligned_mem h a (List.mem_cons_self _ _)
    cases t with
    | nil =>
      show (a.1 + a.2) % segment_size = 0
      have hS : segment_size = 4194304 := rfl
      rw [hS] at hmem ⊢
      omega
    | cons b t2 =>
      rw [endOf_cons_cons]
      refine ih ?_
      simp only [alignedRegions, List.all_cons, Bool.and_eq_true] at h
      simp only [alignedRegions, List.all_cons, Bool.and_eq_true]
      exact h.2

theorem endOf_eq_getD : ∀ (rs : List (Nat × Nat)), rs ≠ [] →
    endOf rs = (rs.getD (rs.length - 1) (0, 0)).1 + (rs.getD (rs.length - 1) (0, 0)).2 := by
  intro rs
  induction rs with
  | nil => intro h; exact absurd rfl h
  | cons a t ih =>
    intro _
    cases t with
    | nil => rfl
    | cons b t2 =>
      rw [endOf_cons_cons, ih (by simp)]
      have h1 : (a :: b :: t2).length - 1 = (b :: t2).length - 1 + 1 := by
        simp only [List.length_cons]
        omega
      rw [h1, List.getD_cons_succ]

theorem contig_blocks (base sz : Nat) (hsz : 0 < sz) : ∀ (cnt : Nat),
    contig ((List.range cnt).map fun i => (base + i * sz, sz)) base (base + cnt * sz)
      = true := by
  intro cnt
  induction cnt with
  | zero => simp [contig]
  | succ n ihn =>
    rw [List.range_succ, List.map_append]
    refine contig_append _ _ base (base + n * sz) _ ihn ?_
    simp only [List.map_cons, List.map_nil, contig, Bool.and_eq_true, beq_iff_eq,
      decide_eq_true_eq]
    refine ⟨⟨by trivial, hsz⟩, ?_⟩
    ring

theorem factoryAdd_contig (phys new : Nat) :
    contig (factoryAdd phys new) phys
      (phys + (new - phys) / full_region_size * full_region_size
        + ((new - phys) % full_region_size + min_region_size - 1) / min_region_size
          * min_region_size) = true := by
  simp only [factoryAdd]
  exact contig_append _ _ phys
    (phys + (new - phys) / full_region_size * full_region_size) _
    (contig_blocks phys full_region_size (by decide) _)
    (contig_blocks (phys + (new - phys) / full_region_size * full_region_size)
      min_region_size (by decide) _)

theorem factoryAdd_aligned (phys new : Nat) (hp : phys % segment_size = 0) :
    alignedRegions (factoryAdd phys new) = true := by
  simp only [factoryAdd, alignedRegions, List.all_eq_true]
  intro r hr
  have hS : segment_size = 4194304 := rfl
  have hF : full_region_size = 4294967296 := rfl
  have hM : min_region_size = 4194304 := rfl
  rw [hS] at hp
  rcases List.mem_append.mp hr with hA | hB
  · obtain ⟨i, _, hri⟩ := List.mem_map.mp hA
    subst hri
    simp only [Bool.and_eq_true, beq_iff_eq]
    rw [hS, hF]
    omega
  · obtain ⟨j, _, hrj⟩ := List.mem_map.mp hB
    subst hrj
    simp only [Bool.and_eq_true, beq_iff_eq]
    rw [hS, hF, hM]
    omega

theorem factoryAdd_ne_nil (phys new : Nat) (h : phys < new) : factoryAdd phys new ≠ [] := by
  simp only [factoryAdd]
  intro hcontra
  rcases List.append_eq_nil.mp hcontra with ⟨h1, h2⟩
  rw [List.map_eq_nil_iff, List.range_eq_nil] at h1 h2
  have hF : full_region_size = 4294967296 := rfl
  have hM : min_region_size = 4194304 := rfl
  rw [hF] at h1
  rw [hF, hM] at h2
  omega

theorem umpLoop_spec : ∀ (l2 : List (Nat × Nat)) (sat : Nat → Option (Nat × Nat))
    (b e : Nat), contig l2 b e = true → alignedRegions l2 = true →
    b % segment_size = 0 →
    ∀ sg, umpLoop sat (b / segment_size) l2 sg
      = match regionFind l2 (sg * segment_size) with
        | some r => some r
        | none => sat sg := by
  intro l2
  induction l2 with
  | nil => intro sat b e _ _ _ sg; rfl
  | cons hd rest ih =>
    intro sat b e hc ha hb sg
    obtain ⟨off, size⟩ := hd
    simp only [contig, Bool.and_eq_true, beq_iff_eq, decide_eq_true_eq] at hc
    obtain ⟨⟨hoff, hsz⟩, hrest⟩ := hc
    subst hoff
    simp only [alignedRegions, List.all_cons, Bool.and_eq_true, beq_iff_eq] at ha
    obtain ⟨⟨hao, has⟩, harest⟩ := ha
    have harest' : alignedRegions rest = true := by
      simp only [alignedRegions]
      exact harest
    simp only [umpLoop]
    have hstep : off / segment_size + size / segment_size = (off + size) / segment_size := by
      have hS : segment_size = 4194304 := rfl
      rw [hS] at hao has ⊢
      omega
    rw [hstep, ih _ (off + size) e hrest harest' (by
      have hS : segment_size = 4194304 := rfl
      rw [hS] at hao has ⊢
      omega) sg]
    by_cases hin : off ≤ sg * segment_size ∧ sg * segment_size < off + size
    · have hnone : regionFind rest (sg * segment_size) = none := by
        refine regionFind_eq_none_of rest _ ?_
        intro r hr hcon
        have := contig_offsets_ge rest (off + size) e hrest r hr
        omega
      rw [hnone]
      simp only [regionFind, if_pos hin]
      simp only [satSet]
      rw [if_pos ((seg_range_iff hao has).mpr hin)]
    · simp only [regionFind, if_neg hin]
      rcases hf : regionFind rest (sg * segment_size) with _ | r
      · simp only [satSet]
        rw [if_neg fun hcon => hin ((seg_range_iff hao has).mp hcon)]
      · rfl

theorem ump_eq (l1 l2 : List (Nat × Nat)) (sat : Nat → Option (Nat × Nat)) :
    update_master_pointers (l1 ++ l2) sat l1.length
      = umpLoop sat (endOf l1 / segment_size) l2 := by
  simp only [update_master_pointers, List.drop_left]
  by_cases h0 : l1.length = 0
  · rw [if_pos h0]
    have hnil : l1 = [] := List.length_eq_zero.mp h0
    subst hnil
    simp [endOf]
  · rw [if_neg h0]
    have hne : l1 ≠ [] := by
      intro hh
      exact h0 (by rw [hh]; rfl)
    rw [List.getD_append _ _ _ _ (by omega), ← endOf_eq_getD l1 hne]

theorem wf_init : wf ⟨[], fun _ => none⟩ := ⟨rfl, rfl, fun _ => rfl⟩

theorem wf_shrink {s : State} (h : wf s) (new : Nat) : wf (shrink s new) := by
  obtain ⟨hc, ha, hsat⟩ := h
  have hreg := shrink_regions_eq hc new
  refine ⟨?_, ?_, ?_⟩
  · rw [hreg]
    obtain ⟨m, hm⟩ := contig_filter_exists new s.regions 0 (endOf s.regions) hc
    exact contig_endOf_of hm
  · rw [hreg]
    exact aligned_filter ha _
  · intro sg
    rw [hreg]
    obtain ⟨l1, l2, hsplit, hfil, hge⟩ :=
      contig_split_at new s.regions 0 (endOf s.regions) hc
    by_cases hdrop : ∀ r ∈ s.regions, new ≤ r.1 →
        ¬ (r.1 / segment_size ≤ sg ∧ sg < r.1 / segment_size + r.2 / segment_size)
    · rw [shrink_sat_keep s new sg hdrop, hsat sg, ← hfil]
      conv_lhs => rw [hsplit]
      rw [regionFind_append_eq]
      rcases hf1 : regionFind l1 (sg * segment_size) with _ | r1
      · refine regionFind_eq_none_of l2 _ ?_
        intro r hrl2 hcon
        have hrge := hge r hrl2
        have hrmem : r ∈ s.regions := by
          rw [hsplit]
          exact List.mem_append_right _ hrl2
        have hal := aligned_mem ha r hrmem
        exact hdrop r hrmem hrge ((seg_range_iff hal.1 hal.2).mpr hcon)
      · rfl
    · push_neg at hdrop
      obtain ⟨r, hrmem, hrge, hr12⟩ := hdrop
      rw [shrink_sat_null hc new r hrmem hrge sg hr12.1 hr12.2]
      symm
      rw [← hfil]
      refine regionFind_eq_none_of l1 _ ?_
      intro r' hr'l1 hcon
      have hr'mem : r' ∈ s.regions := by
        rw [hsplit]
        exact List.mem_append_left _ hr'l1
      have hr'fil : r' ∈ s.regions.filter (fun x => decide (x.1 < new)) := hfil ▸ hr'l1
      have hr'lt : r'.1 < new := by
        have := List.of_mem_filter hr'fil
        simpa using this
      have hal := aligned_mem ha r hrmem
      have hrcont := (seg_range_iff hal.1 hal.2).mp ⟨hr12.1, hr12.2⟩
      have heq := contig_disjoint s.regions 0 (endOf s.regions) (sg * segment_size) hc
        r' hr'mem r hrmem hcon.1 hcon.2 hrcont.1 hrcont.2
      rw [heq] at hr'lt
      omega

theorem wf_map_bytes {s : State} (h : wf s) (o n : Nat) : wf (map_bytes s o n) := by
  obtain ⟨hc, ha, hsat⟩ := h
  by_cases hgrow : endOf s.regions < n
  · have hmb : map_bytes s o n =
        { regions := s.regions ++ factoryAdd (endOf s.regions) n,
          sat := update_master_pointers (s.regions ++ factoryAdd (endOf s.regions) n)
            s.sat s.regions.length } := by
      simp only [map_bytes, if_pos hgrow]
    rw [hmb]
    have hfc := factoryAdd_contig (endOf s.regions) n
    have hfa := factoryAdd_aligned (endOf s.regions) n (aligned_endOf _ ha)
    have hca := contig_append s.regions (factoryAdd (endOf s.regions) n) 0
      (endOf s.regions) _ hc hfc
    refine ⟨contig_endOf_of hca, aligned_append ha hfa, ?_⟩
    intro sg
    show update_master_pointers (s.regions ++ factoryAdd (endOf s.regions) n)
      s.sat s.regions.length sg = _
    rw [ump_eq, umpLoop_spec (factoryAdd (endOf s.regions) n) s.sat (endOf s.regions) _
      hfc hfa (aligned_endOf _ ha) sg, hsat sg]
    show _ = regionFind (s.regions ++ factoryAdd (endOf s.regions) n) (sg * segment_size)
    rw [regionFind_append_eq]
    rcases hf1 : regionFind s.regions (sg * segment_size) with _ | r1 <;>
      rcases hf2 : regionFind (factoryAdd (endOf s.regions) n) (sg * segment_size)
        with _ | r2
    · rfl
    · rfl
    · rfl
    · exfalso
      obtain ⟨hm1, h11, h12⟩ := regionFind_mem _ _ r1 hf1
      obtain ⟨hm2, h21, h22⟩ := regionFind_mem _ _ r2 hf2
      have he1 := contig_ends_le s.regions 0 (endOf s.regions) hc r1 hm1
      have he2 := contig_offsets_ge (factoryAdd (endOf s.regions) n) (endOf s.regions) _
        hfc r2 hm2
      omega
  · have hmb : map_bytes s o n = if n < o then shrink s n else s := by
      simp only [map_bytes, if_neg hgrow]
    rw [hmb]
    by_cases hsh : n < o
    · rw [if_pos hsh]
      exact wf_shrink ⟨hc, ha, hsat⟩ n
    · rw [if_neg hsh]
      exact ⟨hc, ha, hsat⟩

theorem wf_run (ops : List Op) : wf (run ops) := by
  suffices h : ∀ (l : List Op) (s : State), wf s → wf (l.foldl step s) by
    exact h ops _ wf_init
  intro l
  induction l with
  | nil => intro s hs; exact hs
  | cons op t ih =>
    intro s hs
    rw [List.foldl_cons]
    refine ih _ ?_
    cases op with
    | map_bytes o n => exact wf_map_bytes hs o n
    | shrink n => exact wf_shrink hs n

end storage

/-- **C7**: the SAT/shrink invariant.  After any sequence of `map_bytes` and
`shrink` operations: a SAT entry is non-null iff its segment's byte range is
covered by a currently mapped region; `shrink (new_size)` drops exactly the
regions whose extent lies entirely at or beyond `new_size` (those starting at
or past it, the others being below it under the contiguity invariant), nulls
every SAT entry of each dropped region, and leaves the other regions and all
other SAT entries unchanged. -/
theorem claim_C7_sat_shrink_invariant (ops : List storage.Op) :
    (∀ seg, ((storage.run ops).sat seg).isSome = true ↔
        ∃ r ∈ (storage.run ops).regions,
          r.1 ≤ seg * storage.segment_size ∧
          (seg + 1) * storage.segment_size ≤ r.1 + r.2) ∧
    (∀ new_size,
      (storage.shrink (storage.run ops) new_size).regions
        = (storage.run ops).regions.filter fun r => decide (r.1 < new_size)) ∧
    (∀ new_size, ∀ r ∈ (storage.run ops).regions, new_size ≤ r.1 →
      ∀ seg, r.1 / storage.segment_size ≤ seg →
        seg < r.1 / storage.segment_size + r.2 / storage.segment_size →
        (storage.shrink (storage.run ops) new_size).sat seg = none) ∧
    (∀ new_size seg,
      (∀ r ∈ (storage.run ops).regions, new_size ≤ r.1 →
        ¬ (r.1 / storage.segment_size ≤ seg ∧
           seg < r.1 / storage.segment_size + r.2 / storage.segment_size)) →
      (storage.shrink (storage.run ops) new_size).sat seg
        = (storage.run ops).sat seg) := by
  obtain ⟨hc, ha, hsat⟩ := storage.wf_run ops
  refine ⟨?_, ?_, ?_, ?_⟩
  · intro seg
    rw [hsat seg]
    constructor
    · intro hsome
      obtain ⟨r, hr⟩ := Option.isSome_iff_exists.mp hsome
      obtain ⟨hmem, h1, h2⟩ := storage.regionFind_mem _ _ _ hr
      have hal := storage.aligned_mem ha r hmem
      refine ⟨r, hmem, h1, ?_⟩
      have hS : storage.segment_size = 4194304 := rfl
      rw [hS] at h1 h2 ⊢
      rw [hS] at hal
      omega
    · rintro ⟨r, hmem, h1, h2⟩
      refine storage.regionFind_isSome_of_mem _ _ _ hmem h1 ?_
      have hS : storage.segment_size = 4194304 := rfl
      rw [hS] at h1 h2 ⊢
      omega
  · intro new_size
    exact storage.shrink_regions_eq hc new_size
  · intro new_size r hmem hge seg h1 h2
    exact storage.shrink_sat_null hc new_size r hmem hge seg h1 h2
  · intro new_size seg hkeep
    exact storage.shrink_sat_keep _ new_size seg hkeep

/-- **C7** witness: mapping 4 MiB from the empty storage makes SAT entry 0
non-null, and shrinking to 0 nulls it. -/
theorem claim_C7_sat_shrink_invariant_witness :
    ((storage.run [storage.Op.map_bytes 0 4194304]).sat 0).isSome = true ∧
    (storage.shrink (storage.run [storage.Op.map_bytes 0 4194304]) 0).sat 0 = none :=
  ⟨((claim_C7_sat_shrink_invariant [storage.Op.map_bytes 0 4194304]).1 0).mpr
      ⟨(0, 4194304), by decide, by decide, by decide⟩,
   (claim_C7_sat_shrink_invariant [storage.Op.map_bytes 0 4194304]).2.2.1 0 (0, 4194304)
      (by decide) (by decide) 0 (by decide) (by decide)⟩

/-! ## Claim C4 -/

/-- `round_down x (2^j)` clears the low `j` bits: it equals `x - x % 2^j`. -/
theorem round_down_eq {x j : Nat} (hx : x < 2 ^ 64) (hj : j ≤ 64) :
    storage.round_down x (2 ^ j) = x - x % 2 ^ j := by
  have hshift : x - x % 2 ^ j = (x >>> j) <<< j := by
    rw [Nat.shiftRight_eq_div_pow, Nat.shiftLeft_eq, Nat.mul_comm]
    have := Nat.div_add_mod x (2 ^ j)
    omega
  rw [hshift]
  apply Nat.eq_of_testBit_eq
  intro i
  unfold storage.round_down mask64
  rw [Nat.testBit_land, Nat.testBit_xor, Nat.testBit_two_pow_sub_one,
    Nat.testBit_two_pow_sub_one, Nat.testBit_shiftLeft, Nat.testBit_shiftRight]
  by_cases h64 : i < 64
  · by_cases hij : i < j
    · simp [h64, hij, Nat.not_le.mpr hij]
    · have hji : j ≤ i := Nat.not_lt.mp hij
      have hsum : j + (i - j) = i := by omega
      simp [h64, hij, hji, hsum]
  · have hxi : x.testBit i = false :=
      Nat.testBit_eq_false_of_lt
        (lt_of_lt_of_le hx (Nat.pow_le_pow_right (by norm_num) (by omega)))
    have hij : ¬ i < j := by omega
    have hji : j ≤ i := by omega
    have hsum : j + (i - j) = i := by omega
    simp [h64, hij, hji, hxi, hsum]

theorem contigRev_le :
    ∀ (rl : List (Nat × Nat)) (b e : Nat), storage.contigRev rl b e = true → b ≤ e := by
  intro rl
  induction rl with
  | nil =>
    intro b e h
    simp [storage.contigRev] at h
    omega
  | cons r rest ih =>
    intro b e h
    obtain ⟨off, size⟩ := r
    simp only [storage.contigRev, Bool.and_eq_true, beq_iff_eq, decide_eq_true_eq] at h
    obtain ⟨⟨he, hsz⟩, hrest⟩ := h
    have := ih b off hrest
    omega

/-- The byte set covered by the `read_only` calls of the reverse region walk:
exactly `[f, l) ∩ [b, e)` when the visited regions tile `[b, e)`. -/
theorem protectLoop_spec (f l : Nat) :
    ∀ (rl : List (Nat × Nat)) (b e byte : Nat), storage.contigRev rl b e = true →
      (storage.isProtected (storage.protectLoop f l rl) byte = true ↔
        f ≤ byte ∧ byte < l ∧ b ≤ byte ∧ byte < e) := by
  intro rl
  induction rl with
  | nil =>
    intro b e byte h
    simp [storage.contigRev] at h
    simp [storage.protectLoop, storage.isProtected]
    omega
  | cons r rest ih =>
    intro b e byte h
    obtain ⟨off, size⟩ := r
    simp only [storage.contigRev, Bool.and_eq_true, beq_iff_eq, decide_eq_true_eq] at h
    obtain ⟨⟨he, hsz⟩, hrest⟩ := h
    have hble : b ≤ off := contigRev_le rest b off hrest
    have ihr := ih b off byte hrest
    simp only [storage.isProtected] at ihr ⊢
    simp only [storage.protectLoop]
    by_cases hbr : off + size < max off f
    · rw [if_pos hbr]
      simp only [List.any_nil, Bool.false_eq_true, false_iff]
      omega
    · rw [if_neg hbr]
      by_cases hc : f ≤ max off f ∧ max off f < min (off + size) l
      · rw [if_pos hc]
        simp only [List.any_cons, Bool.or_eq_true, decide_eq_true_eq, ihr]
        omega
      · rw [if_neg hc]
        rw [ihr]
        have hmax : f ≤ max off f := le_max_right off f
        omega

/-- **C4** (amended): the byte range made read-only by
`storage::protect (first, last)` is the requested range with its *start*
rounded down to a page boundary (but never below the first page boundary at
or after the end of the header) and its *end* rounded **down** (inward, not
outward) to a page boundary, intersected with the mapped regions; and no
byte of the header (which contains the footer-pointer slot) is ever made
read-only. -/
theorem claim_C4_protect_range (j leader_size first last b0 e byte : Nat)
    (regions : List (Nat × Nat))
    (hj : j ≤ 64) (hfirst : first < 2 ^ 64) (hlast : last < 2 ^ 64)
    (hleader : leader_size + 2 ^ j ≤ 2 ^ 64)
    (hreg : storage.contigRev regions.reverse b0 e = true) :
    (storage.isProtected (storage.protect (2 ^ j) leader_size regions first last) byte = true ↔
      (max (first - first % 2 ^ j)
           (leader_size + 2 ^ j - 1 - (leader_size + 2 ^ j - 1) % 2 ^ j) ≤ byte ∧
        byte < last - last % 2 ^ j ∧ b0 ≤ byte ∧ byte < e)) ∧
    (byte < leader_size →
      storage.isProtected (storage.protect (2 ^ j) leader_size regions first last) byte
        = false) := by
  have hpos : 0 < (2 : Nat) ^ j := Nat.two_pow_pos j
  have hr1 : storage.round_down first (2 ^ j) = first - first % 2 ^ j :=
    round_down_eq hfirst hj
  have hr2 : storage.round_down last (2 ^ j) = last - last % 2 ^ j :=
    round_down_eq hlast hj
  have hr3 : storage.round_down (leader_size + 2 ^ j - 1) (2 ^ j) =
      leader_size + 2 ^ j - 1 - (leader_size + 2 ^ j - 1) % 2 ^ j :=
    round_down_eq (by omega) hj
  have hmain :
      storage.isProtected (storage.protect (2 ^ j) leader_size regions first last) byte = true ↔
        (max (first - first % 2 ^ j)
             (leader_size + 2 ^ j - 1 - (leader_size + 2 ^ j - 1) % 2 ^ j) ≤ byte ∧
          byte < last - last % 2 ^ j ∧ b0 ≤ byte ∧ byte < e) := by
    simp only [storage.protect, hr1, hr2, hr3]
    exact protectLoop_spec _ _ regions.reverse b0 e byte hreg
  refine ⟨hmain, ?_⟩
  intro hb
  cases hP : storage.isProtected (storage.protect (2 ^ j) leader_size regions first last) byte with
  | false => rfl
  | true =>
    exfalso
    have h1 := hmain.mp hP
    have h2 : (leader_size + 2 ^ j - 1) % 2 ^ j < 2 ^ j := Nat.mod_lt _ hpos
    have h3 : leader_size + 2 ^ j - 1 - (leader_size + 2 ^ j - 1) % 2 ^ j ≤ byte := by
      have := le_max_right (first - first % 2 ^ j)
        (leader_size + 2 ^ j - 1 - (leader_size + 2 ^ j - 1) % 2 ^ j)
      omega
    omega

theorem claim_C4_protect_range_witness :
    (12 : Nat) ≤ 64 ∧ (4096 : Nat) < 2 ^ 64 ∧ (8193 : Nat) < 2 ^ 64 ∧
    (4096 : Nat) + 2 ^ 12 ≤ 2 ^ 64 ∧
    storage.contigRev [((0 : Nat), (4194304 : Nat))].reverse 0 4194304 = true ∧
    ((storage.isProtected (storage.protect (2 ^ 12) 4096 [(0, 4194304)] 4096 8193) 5000 = true ↔
        (max (4096 - 4096 % 2 ^ 12)
             (4096 + 2 ^ 12 - 1 - (4096 + 2 ^ 12 - 1) % 2 ^ 12) ≤ 5000 ∧
          5000 < 8193 - 8193 % 2 ^ 12 ∧ 0 ≤ 5000 ∧ 5000 < 4194304)) ∧
      ((5000 : Nat) < 4096 →
        storage.isProtected (storage.protect (2 ^ 12) 4096 [(0, 4194304)] 4096 8193) 5000
          = false)) :=
  ⟨by norm_num, by norm_num, by norm_num, by norm_num, by decide,
    claim_C4_protect_range 12 4096 4096 8193 0 4194304 5000 [(0, 4194304)]
      (by norm_num) (by norm_num) (by norm_num) (by norm_num) (by decide)⟩

/-- **C4** counterexample to "the range actually made read-only is the
requested range rounded *outward* to page boundaries": with a 4096-byte page,
a 4096-byte header and one 4 MiB region, the call `protect (4096, 8193)`
leaves byte 8192 unprotected even though it lies inside the requested range
`[4096, 8193)` (and inside the mapped region), because the end of the range
is rounded *down* to 8192.  Outward rounding could only enlarge the range, so
the claim as stated is false at this input. -/
theorem claim_C4_protect_range_counterexample :
    storage.isProtected (storage.protect 4096 4096 [(0, 4194304)] 4096 8193) 8192 = false ∧
    4096 ≤ 8192 ∧ 8192 < 8193 ∧ (8192 : Nat) < 4194304 := by
  decide

/-! ## Claim C8 -/

namespace hamt

theorem getD_append_lt {l l' : List Nat} {i : Nat} (h : i < l.length) :
    (l ++ l').getD i 0 = l.getD i 0 :=
  List.getD_append l l' 0 i h

theorem getD_append_len : ∀ (l : List Nat) (x : Nat), (l ++ [x]).getD l.length 0 = x := by
  intro l x
  induction l with
  | nil => rfl
  | cons a t ih => simpa using ih

theorem lookupChild_setChild : ∀ (ch : List (Nat × node)) (c : Nat) (v : node),
    lookupChild (setChild ch c v) c = some v := by
  intro ch c v
  induction ch with
  | nil => simp [setChild, lookupChild]
  | cons hd t ih =>
    obtain ⟨c', v'⟩ := hd
    by_cases hcc : c' = c
    · simp [setChild, hcc, lookupChild]
    · simp [setChild, hcc, lookupChild, ih]

theorem setChild_id : ∀ (ch : List (Nat × node)) (c : Nat) (v : node),
    lookupChild ch c = some v → setChild ch c v = ch := by
  intro ch c v
  induction ch with
  | nil => intro h; simp [lookupChild] at h
  | cons hd t ih =>
    obtain ⟨c', v'⟩ := hd
    intro h
    by_cases hcc : c' = c
    · simp only [lookupChild, if_pos hcc, Option.some.injEq] at h
      simp [setChild, hcc, h]
    · simp only [lookupChild, if_neg hcc] at h
      simp [setChild, hcc, ih h]

theorem lookupChild_mem : ∀ (ch : List (Nat × node)) (c : Nat) (v : node),
    lookupChild ch c = some v → (c, v) ∈ ch := by
  intro ch c v
  induction ch with
  | nil => intro h; simp [lookupChild] at h
  | cons hd t ih =>
    obtain ⟨c', v'⟩ := hd
    intro h
    by_cases hcc : c' = c
    · simp only [lookupChild, if_pos hcc, Option.some.injEq] at h
      subst hcc; subst h
      exact List.mem_cons_self _ _
    · simp only [lookupChild, if_neg hcc] at h
      exact List.mem_cons_of_mem _ (ih h)

theorem linearFind_some_getD {s addrs : List Nat} {key a : Nat}
    (h : linearFind s addrs key = some a) : s.getD a 0 = key := by
  induction addrs with
  | nil => simp [linearFind] at h
  | cons x t ih =>
    by_cases hx : s.getD x 0 = key
    · simp only [linearFind, if_pos hx, Option.some.injEq] at h
      subst h; exact hx
    · simp only [linearFind, if_neg hx] at h
      exact ih h

theorem linearFind_none_getD {s addrs : List Nat} {key : Nat}
    (h : linearFind s addrs key = none) : ∀ a ∈ addrs, s.getD a 0 ≠ key := by
  induction addrs with
  | nil => intro a ha; cases ha
  | cons x t ih =>
    intro a ha
    by_cases hx : s.getD x 0 = key
    · simp only [linearFind, if_pos hx] at h
      exact Option.noConfusion h
    · simp only [linearFind, if_neg hx] at h
      rcases List.mem_cons.mp ha with heq | hmem
      · subst heq; exact hx
      · exact ih h a hmem

theorem linearFind_stable {s s' addrs : List Nat} {key : Nat}
    (h : ∀ a ∈ addrs, s'.getD a 0 = s.getD a 0) :
    linearFind s' addrs key = linearFind s addrs key := by
  induction addrs with
  | nil => rfl
  | cons x t ih =>
    have hx := h x (List.mem_cons_self _ _)
    simp only [linearFind, hx]
    split
    · rfl
    · exact ih fun a ha => h a (List.mem_cons_of_mem _ ha)

theorem linearFind_append_hit {s addrs : List Nat} {key aN : Nat}
    (h : ∀ a ∈ addrs, s.getD a 0 ≠ key) (hN : s.getD aN 0 = key) :
    linearFind s (addrs ++ [aN]) key = some aN := by
  induction addrs with
  | nil => simp only [List.nil_append, linearFind, if_pos hN]
  | cons x t ih =>
    have hx := h x (List.mem_cons_self _ _)
    simp only [List.cons_append, linearFind, if_neg hx]
    exact ih fun a ha => h a (List.mem_cons_of_mem _ ha)

theorem join_not_leaf : ∀ (fuel hN hO aN aO a : Nat),
    join fuel hN hO aN aO ≠ node.leaf a := by
  intro fuel hN hO aN aO a
  cases fuel with
  | zero => simp [join]
  | succ f =>
    simp only [join]
    split <;> simp

theorem insertAt_zero (hash : Nat → Nat) (store : List Nat) (n : node) (h d key : Nat) :
    insertAt hash 0 store n h d key
      = match linearFind store (addrsOf n) key with
        | some a => (store, .linear (addrsOf n), a, false)
        | none =>
          (store ++ [key], .linear (addrsOf n ++ [store.length]), store.length, true) := by
  cases n <;> rfl

theorem insertAt_zero_found {hash : Nat → Nat} {store : List Nat} {n : node}
    {h d key a : Nat} (hf : linearFind store (addrsOf n) key = some a) :
    insertAt hash 0 store n h d key = (store, .linear (addrsOf n), a, false) := by
  rw [insertAt_zero, hf]

theorem insertAt_zero_notfound {hash : Nat → Nat} {store : List Nat} {n : node}
    {h d key : Nat} (hf : linearFind store (addrsOf n) key = none) :
    insertAt hash 0 store n h d key
      = (store ++ [key], .linear (addrsOf n ++ [store.length]), store.length, true) := by
  rw [insertAt_zero, hf]

theorem insertAt_leaf_found {hash : Nat → Nat} {fuel : Nat} {store : List Nat}
    {a h d key : Nat} (hk : store.getD a 0 = key) :
    insertAt hash (fuel + 1) store (.leaf a) h d key = (store, .leaf a, a, false) := by
  simp only [insertAt, if_pos hk]

theorem insertAt_leaf_new {hash : Nat → Nat} {fuel : Nat} {store : List Nat}
    {a h d key : Nat} (hk : store.getD a 0 ≠ key) :
    insertAt hash (fuel + 1) store (.leaf a) h d key
      = (store ++ [key],
         join (fuel + 1) h (hash (store.getD a 0) / 64 ^ d) store.length a,
         store.length, true) := by
  simp only [insertAt, if_neg hk]

theorem insertAt_linear_found {hash : Nat → Nat} {fuel : Nat} {store l : List Nat}
    {h d key a : Nat} (hf : linearFind store l key = some a) :
    insertAt hash (fuel + 1) store (.linear l) h d key = (store, .linear l, a, false) := by
  simp only [insertAt, hf]

theorem insertAt_linear_new {hash : Nat → Nat} {fuel : Nat} {store l : List Nat}
    {h d key : Nat} (hf : linearFind store l key = none) :
    insertAt hash (fuel + 1) store (.linear l) h d key
      = (store ++ [key], .linear (l ++ [store.length]), store.length, true) := by
  simp only [insertAt, hf]

theorem insertAt_branch_empty {hash : Nat → Nat} {fuel : Nat} {store : List Nat}
    {ch : List (Nat × node)} {h d key : Nat} (hlk : lookupChild ch (h % 64) = none) :
    insertAt hash (fuel + 1) store (.branch ch) h d key
      = (store ++ [key], .branch (setChild ch (h % 64) (.leaf store.length)),
         store.length, true) := by
  simp only [insertAt, hlk]

theorem insertAt_branch_leaf_found {hash : Nat → Nat} {fuel : Nat} {store : List Nat}
    {ch : List (Nat × node)} {h d key a : Nat}
    (hlk : lookupChild ch (h % 64) = some (.leaf a)) (hk : store.getD a 0 = key) :
    insertAt hash (fuel + 1) store (.branch ch) h d key = (store, .branch ch, a, false) := by
  simp only [insertAt, hlk, if_pos hk]

theorem insertAt_branch_leaf_new {hash : Nat → Nat} {fuel : Nat} {store : List Nat}
    {ch : List (Nat × node)} {h d key a : Nat}
    (hlk : lookupChild ch (h % 64) = some (.leaf a)) (hk : store.getD a 0 ≠ key) :
    insertAt hash (fuel + 1) store (.branch ch) h d key
      = (store ++ [key],
         .branch (setChild ch (h % 64)
           (join fuel (h / 64) (hash (store.getD a 0) / 64 ^ (d + 1)) store.length a)),
         store.length, true) := by
  simp only [insertAt, hlk, if_neg hk]

theorem insertAt_branch_go_branch {hash : Nat → Nat} {fuel : Nat} {store s1 : List Nat}
    {ch ch2 : List (Nat × node)} {n1 : node} {h d key a1 : Nat} {i1 : Bool}
    (hlk : lookupChild ch (h % 64) = some (.branch ch2))
    (hrec : insertAt hash fuel store (.branch ch2) (h / 64) (d + 1) key = (s1, n1, a1, i1)) :
    insertAt hash (fuel + 1) store (.branch ch) h d key
      = (s1, .branch (setChild ch (h % 64) n1), a1, i1) := by
  simp only [insertAt, hlk, hrec]

theorem insertAt_branch_go_linear {hash : Nat → Nat} {fuel : Nat} {store s1 : List Nat}
    {ch : List (Nat × node)} {l2 : List Nat} {n1 : node} {h d key a1 : Nat} {i1 : Bool}
    (hlk : lookupChild ch (h % 64) = some (.linear l2))
    (hrec : insertAt hash fuel store (.linear l2) (h / 64) (d + 1) key = (s1, n1, a1, i1)) :
    insertAt hash (fuel + 1) store (.branch ch) h d key
      = (s1, .branch (setChild ch (h % 64) n1), a1, i1) := by
  simp only [insertAt, hlk, hrec]

theorem insertRoot_none (hash : Nat → Nat) (store : List Nat) (key : Nat) :
    insertRoot hash store none key
      = (store ++ [key], some (.leaf store.length), store.length, true) := rfl

theorem insertRoot_some {hash : Nat → Nat} {store s1 : List Nat} {n n1 : node}
    {key a1 : Nat} {i1 : Bool}
    (hrec : insertAt hash max_branch_depth store n (hash key) 0 key = (s1, n1, a1, i1)) :
    insertRoot hash store (some n) key = (s1, some n1, a1, i1) := by
  simp only [insertRoot, hrec]

/-- The replacement node produced by an insert below a non-leaf node is never
a leaf. -/
theorem insertAt_not_leaf (hash : Nat → Nat) (fuel : Nat) (store : List Nat) (n : node)
    (h d key : Nat) (hn : isLeaf n = false) :
    ∀ (s' : List Nat) (n' : node) (a' : Nat) (i' : Bool),
      insertAt hash fuel store n h d key = (s', n', a', i') → isLeaf n' = false := by
  intro s' n' a' i' heq
  cases fuel with
  | zero =>
    rcases hf : linearFind store (addrsOf n) key with _ | a
    · rw [insertAt_zero_notfound hf] at heq
      simp only [Prod.mk.injEq] at heq
      obtain ⟨rfl, rfl, rfl, rfl⟩ := heq
      rfl
    · rw [insertAt_zero_found hf] at heq
      simp only [Prod.mk.injEq] at heq
      obtain ⟨rfl, rfl, rfl, rfl⟩ := heq
      rfl
  | succ f =>
    cases n with
    | leaf a => simp [isLeaf] at hn
    | linear l =>
      rcases hf : linearFind store l key with _ | a
      · rw [insertAt_linear_new hf] at heq
        simp only [Prod.mk.injEq] at heq
        obtain ⟨rfl, rfl, rfl, rfl⟩ := heq
        rfl
      · rw [insertAt_linear_found hf] at heq
        simp only [Prod.mk.injEq] at heq
        obtain ⟨rfl, rfl, rfl, rfl⟩ := heq
        rfl
    | branch ch =>
      rcases hlk : lookupChild ch (h % 64) with _ | child
      · rw [insertAt_branch_empty hlk] at heq
        simp only [Prod.mk.injEq] at heq
        obtain ⟨rfl, rfl, rfl, rfl⟩ := heq
        rfl
      · cases child with
        | leaf a =>
          by_cases hk : store.getD a 0 = key
          · rw [insertAt_branch_leaf_found hlk hk] at heq
            simp only [Prod.mk.injEq] at heq
            obtain ⟨rfl, rfl, rfl, rfl⟩ := heq
            rfl
          · rw [insertAt_branch_leaf_new hlk hk] at heq
            simp only [Prod.mk.injEq] at heq
            obtain ⟨rfl, rfl, rfl, rfl⟩ := heq
            rfl
        | branch ch2 =>
          rcases hrec : insertAt hash f store (.branch ch2) (h / 64) (d + 1) key
            with ⟨s1, n1, a1, i1⟩
          rw [insertAt_branch_go_branch hlk hrec] at heq
          simp only [Prod.mk.injEq] at heq
          obtain ⟨rfl, rfl, rfl, rfl⟩ := heq
          rfl
        | linear l2 =>
          rcases hrec : insertAt hash f store (.linear l2) (h / 64) (d + 1) key
            with ⟨s1, n1, a1, i1⟩
          rw [insertAt_branch_go_linear hlk hrec] at heq
          simp only [Prod.mk.injEq] at heq
          obtain ⟨rfl, rfl, rfl, rfl⟩ := heq
          rfl

/-- Re-inserting the new key into the subtree built by `join` finds its leaf
again without touching the store. -/
theorem insert_join (hash : Nat → Nat) (key : Nat) :
    ∀ (fuel : Nat) (s : List Nat) (hN hO aN aO d : Nat),
      s.getD aN 0 = key → s.getD aO 0 ≠ key →
      insertAt hash fuel s (join fuel hN hO aN aO) hN d key
        = (s, join fuel hN hO aN aO, aN, false) := by
  intro fuel
  induction fuel with
  | zero =>
    intro s hN hO aN aO d hNk hOk
    have hf : linearFind s [aO, aN] key = some aN := by
      simp only [linearFind, if_neg hOk, if_pos hNk]
    show insertAt hash 0 s (.linear [aO, aN]) hN d key = (s, .linear [aO, aN], aN, false)
    exact insertAt_zero_found hf
  | succ f ih =>
    intro s hN hO aN aO d hNk hOk
    by_cases hc : hN % 64 = hO % 64
    · have hjoin : join (f + 1) hN hO aN aO
          = .branch [(hN % 64, join f (hN / 64) (hO / 64) aN aO)] := by
        simp only [join, if_pos hc]
      rw [hjoin]
      have hlk : lookupChild [(hN % 64, join f (hN / 64) (hO / 64) aN aO)] (hN % 64)
          = some (join f (hN / 64) (hO / 64) aN aO) := by
        simp [lookupChild]
      have hij := ih s (hN / 64) (hO / 64) aN aO (d + 1) hNk hOk
      rcases hj : join f (hN / 64) (hO / 64) aN aO with a | ch2 | l2
      · exact absurd hj (join_not_leaf f _ _ _ _ a)
      · rw [hj] at hlk hij
        rw [insertAt_branch_go_branch hlk hij, setChild_id _ _ _ hlk]
      · rw [hj] at hlk hij
        rw [insertAt_branch_go_linear hlk hij, setChild_id _ _ _ hlk]
    · have hjoin : join (f + 1) hN hO aN aO
          = .branch [(hN % 64, .leaf aN), (hO % 64, .leaf aO)] := by
        simp only [join, if_neg hc]
      rw [hjoin]
      have hlk : lookupChild [(hN % 64, node.leaf aN), (hO % 64, node.leaf aO)] (hN % 64)
          = some (.leaf aN) := by
        simp [lookupChild]
      rw [insertAt_branch_leaf_found hlk hNk]

/-- Inserting the same key a second time, into the store and node returned by
a first insert, changes nothing: it returns the same store, the same node and
the same leaf address, with `inserted = false`. -/
theorem insertAt_idem (hash : Nat → Nat) (key : Nat) :
    ∀ (fuel : Nat) (store : List Nat) (n : node) (h d : Nat)
      (s' : List Nat) (n' : node) (a' : Nat) (i' : Bool),
      validNode store.length n →
      insertAt hash fuel store n h d key = (s', n', a', i') →
      insertAt hash fuel s' n' h d key = (s', n', a', false) := by
  intro fuel
  induction fuel with
  | zero =>
    intro store n h d s' n' a' i' hv heq
    have haddr : ∀ x ∈ addrsOf n, x < store.length := by
      cases hv with
      | leaf a ha =>
        intro x hx
        simp only [addrsOf, List.mem_singleton] at hx
        subst hx
        exact ha
      | branch ch hch =>
        intro x hx
        simp [addrsOf] at hx
      | linear addrs hl => exact hl
    rcases hf : linearFind store (addrsOf n) key with _ | a
    · rw [insertAt_zero_notfound hf] at heq
      simp only [Prod.mk.injEq] at heq
      obtain ⟨rfl, rfl, rfl, rfl⟩ := heq
      have hfind2 : linearFind (store ++ [key]) (addrsOf n ++ [store.length]) key
          = some store.length := by
        refine linearFind_append_hit ?_ (getD_append_len store key)
        intro x hx
        rw [getD_append_lt (haddr x hx)]
        exact linearFind_none_getD hf x hx
      exact insertAt_zero_found hfind2
    · rw [insertAt_zero_found hf] at heq
      simp only [Prod.mk.injEq] at heq
      obtain ⟨rfl, rfl, rfl, rfl⟩ := heq
      exact insertAt_zero_found hf
  | succ f ih =>
    intro store n h d s' n' a' i' hv heq
    cases hv with
    | leaf a ha =>
      by_cases hk : store.getD a 0 = key
      · rw [insertAt_leaf_found hk] at heq
        simp only [Prod.mk.injEq] at heq
        obtain ⟨rfl, rfl, rfl, rfl⟩ := heq
        exact insertAt_leaf_found hk
      · rw [insertAt_leaf_new hk] at heq
        simp only [Prod.mk.injEq] at heq
        obtain ⟨rfl, rfl, rfl, rfl⟩ := heq
        exact insert_join hash key (f + 1) (store ++ [key]) h
          (hash (store.getD a 0) / 64 ^ d) store.length a d
          (getD_append_len store key)
          (by rw [getD_append_lt ha]; exact hk)
    | linear addrs hl =>
      rcases hf : linearFind store addrs key with _ | a
      · rw [insertAt_linear_new hf] at heq
        simp only [Prod.mk.injEq] at heq
        obtain ⟨rfl, rfl, rfl, rfl⟩ := heq
        have hfind2 : linearFind (store ++ [key]) (addrs ++ [store.length]) key
            = some store.length := by
          refine linearFind_append_hit ?_ (getD_append_len store key)
          intro x hx
          rw [getD_append_lt (hl x hx)]
          exact linearFind_none_getD hf x hx
        exact insertAt_linear_found hfind2
      · rw [insertAt_linear_found hf] at heq
        simp only [Prod.mk.injEq] at heq
        obtain ⟨rfl, rfl, rfl, rfl⟩ := heq
        exact insertAt_linear_found hf
    | branch ch hch =>
      rcases hlk : lookupChild ch (h % 64) with _ | child
      · rw [insertAt_branch_empty hlk] at heq
        simp only [Prod.mk.injEq] at heq
        obtain ⟨rfl, rfl, rfl, rfl⟩ := heq
        exact insertAt_branch_leaf_found
          (lookupChild_setChild ch (h % 64) (.leaf store.length))
          (getD_append_len store key)
      · have hvchild : validNode store.length child :=
          hch _ (lookupChild_mem ch (h % 64) child hlk)
        cases child with
        | leaf a =>
          have ha : a < store.length := by cases hvchild; assumption
          by_cases hk : store.getD a 0 = key
          · rw [insertAt_branch_leaf_found hlk hk] at heq
            simp only [Prod.mk.injEq] at heq
            obtain ⟨rfl, rfl, rfl, rfl⟩ := heq
            exact insertAt_branch_leaf_found hlk hk
          · rw [insertAt_branch_leaf_new hlk hk] at heq
            simp only [Prod.mk.injEq] at heq
            obtain ⟨rfl, rfl, rfl, rfl⟩ := heq
            have hNk' : (store ++ [key]).getD store.length 0 = key :=
              getD_append_len store key
            have hOk' : (store ++ [key]).getD a 0 ≠ key := by
              rw [getD_append_lt ha]; exact hk
            have hij := insert_join hash key f (store ++ [key]) (h / 64)
              (hash (store.getD a 0) / 64 ^ (d + 1)) store.length a (d + 1) hNk' hOk'
            have hlk2 := lookupChild_setChild ch (h % 64)
              (join f (h / 64) (hash (store.getD a 0) / 64 ^ (d + 1)) store.length a)
            rcases hj : join f (h / 64) (hash (store.getD a 0) / 64 ^ (d + 1))
                store.length a with x | ch2 | l2
            · exact absurd hj (join_not_leaf f _ _ _ _ x)
            · rw [hj] at hlk2 hij
              rw [insertAt_branch_go_branch hlk2 hij, setChild_id _ _ _ hlk2]
            · rw [hj] at hlk2 hij
              rw [insertAt_branch_go_linear hlk2 hij, setChild_id _ _ _ hlk2]
        | branch ch2 =>
          rcases hrec : insertAt hash f store (.branch ch2) (h / 64) (d + 1) key
            with ⟨s1, n1, a1, i1⟩
          rw [insertAt_branch_go_branch hlk hrec] at heq
          simp only [Prod.mk.injEq] at heq
          obtain ⟨rfl, rfl, rfl, rfl⟩ := heq
          have hih := ih store (.branch ch2) (h / 64) (d + 1) s1 n1 a1 i1 hvchild hrec
          have hnl := insertAt_not_leaf hash f store (.branch ch2) (h / 64) (d + 1) key
            rfl s1 n1 a1 i1 hrec
          have hlk2 := lookupChild_setChild ch (h % 64) n1
          cases n1 with
          | leaf x => simp [isLeaf] at hnl
          | branch chn =>
            rw [insertAt_branch_go_branch hlk2 hih, setChild_id _ _ _ hlk2]
          | linear ln =>
            rw [insertAt_branch_go_linear hlk2 hih, setChild_id _ _ _ hlk2]
        | linear l2 =>
          rcases hrec : insertAt hash f store (.linear l2) (h / 64) (d + 1) key
            with ⟨s1, n1, a1, i1⟩
          rw [insertAt_branch_go_linear hlk hrec] at heq
          simp only [Prod.mk.injEq] at heq
          obtain ⟨rfl, rfl, rfl, rfl⟩ := heq
          have hih := ih store (.linear l2) (h / 64) (d + 1) s1 n1 a1 i1 hvchild hrec
          have hnl := insertAt_not_leaf hash f store (.linear l2) (h / 64) (d + 1) key
            rfl s1 n1 a1 i1 hrec
          have hlk2 := lookupChild_setChild ch (h % 64) n1
          cases n1 with
          | leaf x => simp [isLeaf] at hnl
          | branch chn =>
            rw [insertAt_branch_go_branch hlk2 hih, setChild_id _ _ _ hlk2]
          | linear ln =>
            rw [insertAt_branch_go_linear hlk2 hih, setChild_id _ _ _ hlk2]

end hamt

/-- **C8**: HAMT insert is idempotent.  If a first insert of `key` into a
valid index returns store `s'`, root `root'` and leaf address `a'`, then a
second insert of `key` returns exactly the same store (no allocation or
write: the transaction does not grow), the same root and the same leaf
address, with `inserted = false`. -/
theorem claim_C8_insert_idempotent (hash : Nat → Nat) (store : List Nat)
    (root : Option hamt.node) (key : Nat) (s' : List Nat) (root' : Option hamt.node)
    (a' : Nat) (i' : Bool) (hv : hamt.validRoot store.length root)
    (heq : hamt.insertRoot hash store root key = (s', root', a', i')) :
    hamt.insertRoot hash s' root' key = (s', root', a', false) := by
  cases root with
  | none =>
    rw [hamt.insertRoot_none] at heq
    simp only [Prod.mk.injEq] at heq
    obtain ⟨rfl, rfl, rfl, rfl⟩ := heq
    exact hamt.insertRoot_some (hamt.insertAt_leaf_found (hamt.getD_append_len store key))
  | some n =>
    rcases hrec : hamt.insertAt hash hamt.max_branch_depth store n (hash key) 0 key
      with ⟨s1, n1, a1, i1⟩
    rw [hamt.insertRoot_some hrec] at heq
    simp only [Prod.mk.injEq, Option.some.injEq] at heq
    obtain ⟨rfl, rfl, rfl, rfl⟩ := heq
    exact hamt.insertRoot_some
      (hamt.insertAt_idem hash key hamt.max_branch_depth store n (hash key) 0
        s1 n1 a1 i1 hv hrec)

/-- **C8** witness: inserting key 5 into an empty index and then inserting it
again returns the same one-element store, the same single-leaf root and leaf
address 0, with `inserted = false`. -/
theorem claim_C8_insert_idempotent_witness :
    hamt.validRoot ([] : List Nat).length none ∧
    hamt.insertRoot (fun k => k) [] none 5 = ([5], some (.leaf 0), 0, true) ∧
    hamt.insertRoot (fun k => k) [5] (some (.leaf 0)) 5 = ([5], some (.leaf 0), 0, false) :=
  ⟨trivial, rfl,
   claim_C8_insert_idempotent (fun k => k) [] none 5 [5] (some (.leaf 0)) 0 true
     trivial rfl⟩

/-! ## Claim C3 -/

/-- **C3** counterexample to the claim as stated: it is *not* the case that
every combination of forms other than (c)/(c) is compared by contents.  Two
form-(b) strings (in-store words with the LSB set) at different addresses
whose heap views have identical contents compare *unequal*, because
`operator==` compares any two non-pointer strings by address.  The explicit
input: the environment mapping every heap pointer to the one-byte string
`[97]`, and the two form-(b) words 3 and 5. -/
theorem claim_C3_indirect_string_eq_counterexample :
    ¬ (∀ (e : indirect.Env) (x y : indirect.indirect_string),
        ¬ (indirect.is_form_c x = true ∧ indirect.is_form_c y = true) →
        (indirect.eq_op e x y = true ↔
          indirect.as_string_view e x = indirect.as_string_view e y)) := by
  intro h
  have h1 := h ⟨fun _ => [97], fun _ => []⟩
    (indirect.indirect_string.addr 3) (indirect.indirect_string.addr 5)
    (by simp [indirect.is_form_c, indirect.in_heap_mask])
  have h2 : indirect.as_string_view ⟨fun _ => [97], fun _ => []⟩
        (indirect.indirect_string.addr 3) =
      indirect.as_string_view ⟨fun _ => [97], fun _ => []⟩
        (indirect.indirect_string.addr 5) := by
    simp [indirect.as_string_view, indirect.in_heap_mask]
  have h3 := h1.mpr h2
  simp [indirect.eq_op] at h3

/-- **C3** (amended): `operator==` on two *in-store* indirect strings (forms
(b) or (c), i.e. neither is a heap `sstring_view` pointer) is exactly address
equality; for any combination in which at least one operand is a heap
pointer, `operator==` agrees with byte-content comparison. -/
theorem claim_C3_indirect_string_eq (e : indirect.Env) (x y : indirect.indirect_string) :
    (indirect.is_pointer x = false ∧ indirect.is_pointer y = false →
      (indirect.eq_op e x y = true ↔ indirect.addressOf x = indirect.addressOf y)) ∧
    (indirect.is_pointer x = true ∨ indirect.is_pointer y = true →
      (indirect.eq_op e x y = true ↔
        indirect.as_string_view e x = indirect.as_string_view e y)) := by
  cases x with
  | ptr p =>
    cases y with
    | ptr q =>
      constructor
      · intro hf
        simp [indirect.is_pointer] at hf
      · intro _
        by_cases hpq : p = q
        · subst hpq
          simp [indirect.eq_op]
        · simp [indirect.eq_op, hpq, indirect.equal_contents]
    | addr b =>
      constructor
      · intro hf
        simp [indirect.is_pointer] at hf
      · intro _
        simp [indirect.eq_op, indirect.equal_contents]
  | addr a =>
    cases y with
    | ptr q =>
      constructor
      · intro hf
        simp [indirect.is_pointer] at hf
      · intro _
        simp [indirect.eq_op, indirect.equal_contents]
    | addr b =>
      constructor
      · intro _
        simp [indirect.eq_op, indirect.addressOf]
      · intro hf
        simp [indirect.is_pointer] at hf

theorem claim_C3_indirect_string_eq_witness :
    (indirect.eq_op ⟨fun _ => [97], fun _ => [98]⟩
        (indirect.indirect_string.addr 4) (indirect.indirect_string.addr 4) = true ↔
      indirect.addressOf (indirect.indirect_string.addr 4) =
        indirect.addressOf (indirect.indirect_string.addr 4)) ∧
    (indirect.eq_op ⟨fun _ => [97], fun _ => [98]⟩
        (indirect.indirect_string.ptr 1) (indirect.indirect_string.addr 4) = true ↔
      indirect.as_string_view ⟨fun _ => [97], fun _ => [98]⟩
          (indirect.indirect_string.ptr 1) =
        indirect.as_string_view ⟨fun _ => [97], fun _ => [98]⟩
          (indirect.indirect_string.addr 4)) :=
  ⟨(claim_C3_indirect_string_eq ⟨fun _ => [97], fun _ => [98]⟩
      (indirect.indirect_string.addr 4) (indirect.indirect_string.addr 4)).1 ⟨rfl, rfl⟩,
   (claim_C3_indirect_string_eq ⟨fun _ => [97], fun _ => [98]⟩
      (indirect.indirect_string.ptr 1) (indirect.indirect_string.addr 4)).2 (Or.inl rfl)⟩

/-! ## Claim C9 -/

/-- **C9**: `range_lock` semantics.  `unlock` is idempotent: after one call,
a second call changes nothing and performs no file-level unlock.  Move
construction and move assignment transfer ownership of a held lock: the
receiving object holds it, the moved-from object does not (so exactly one of
the two holds it), and destroying the moved-from object performs no
file-level call. -/
theorem claim_C9_range_lock (l other t : file.range_lock) :
    (file.range_lock.unlock (file.range_lock.unlock l).1 =
      ((file.range_lock.unlock l).1, [])) ∧
    (other.locked = true →
      (file.range_lock.moveCtor other).1.locked = true ∧
      (file.range_lock.moveCtor other).2.locked = false ∧
      file.range_lock.destruct (file.range_lock.moveCtor other).2 = []) ∧
    (other.locked = true →
      (file.range_lock.moveAssign t other).1.locked = true ∧
      (file.range_lock.moveAssign t other).2.1.locked = false ∧
      file.range_lock.destruct (file.range_lock.moveAssign t other).2.1 = []) := by
  refine ⟨?_, ?_, ?_⟩
  · cases hl : l.locked <;> cases hf : l.fileValid <;>
      simp [file.range_lock.unlock, hl, hf]
  · intro hl
    refine ⟨by simp [file.range_lock.moveCtor, hl], by simp [file.range_lock.moveCtor], ?_⟩
    simp [file.range_lock.moveCtor, file.range_lock.destruct, file.range_lock.unlock]
  · intro hl
    refine ⟨by simp [file.range_lock.moveAssign, hl], by simp [file.range_lock.moveAssign], ?_⟩
    simp [file.range_lock.moveAssign, file.range_lock.destruct, file.range_lock.unlock]

theorem claim_C9_range_lock_witness :
    (file.range_lock.unlock
        (file.range_lock.unlock (file.range_lock.mk true 8 1 file.lock_kind.exclusive_write true)).1 =
      ((file.range_lock.unlock (file.range_lock.mk true 8 1 file.lock_kind.exclusive_write true)).1,
        [])) ∧
    ((file.range_lock.moveCtor (file.range_lock.mk true 8 1 file.lock_kind.exclusive_write true)).1.locked
        = true ∧
      (file.range_lock.moveCtor (file.range_lock.mk true 8 1 file.lock_kind.exclusive_write true)).2.locked
        = false ∧
      file.range_lock.destruct
          (file.range_lock.moveCtor (file.range_lock.mk true 8 1 file.lock_kind.exclusive_write true)).2
        = []) ∧
    ((file.range_lock.moveAssign (file.range_lock.mk true 0 1 file.lock_kind.shared_read false)
          (file.range_lock.mk true 8 1 file.lock_kind.exclusive_write true)).1.locked = true ∧
      (file.range_lock.moveAssign (file.range_lock.mk true 0 1 file.lock_kind.shared_read false)
          (file.range_lock.mk true 8 1 file.lock_kind.exclusive_write true)).2.1.locked = false ∧
      file.range_lock.destruct
          (file.range_lock.moveAssign (file.range_lock.mk true 0 1 file.lock_kind.shared_read false)
              (file.range_lock.mk true 8 1 file.lock_kind.exclusive_write true)).2.1 = []) :=
  ⟨(claim_C9_range_lock (file.range_lock.mk true 8 1 file.lock_kind.exclusive_write true)
      (file.range_lock.mk true 8 1 file.lock_kind.exclusive_write true)
      (file.range_lock.mk true 0 1 file.lock_kind.shared_read false)).1,
   (claim_C9_range_lock (file.range_lock.mk true 8 1 file.lock_kind.exclusive_write true)
      (file.range_lock.mk true 8 1 file.lock_kind.exclusive_write true)
      (file.range_lock.mk true 0 1 file.lock_kind.shared_read false)).2.1 rfl,
   (claim_C9_range_lock (file.range_lock.mk true 8 1 file.lock_kind.exclusive_write true)
      (file.range_lock.mk true 8 1 file.lock_kind.exclusive_write true)
      (file.range_lock.mk true 0 1 file.lock_kind.shared_read false)).2.2 rfl⟩

theorem claim_C10_index_pointer_roundtrip_witness :
    (8 : Nat) < 2 ^ 64 ∧ (8 : Nat) % 4 = 0 ∧
    (index.index_pointer.is_branch (index.index_pointer.tag 8) = true ∧
      index.index_pointer.is_heap (index.index_pointer.tag 8) = true ∧
      index.index_pointer.untag (index.index_pointer.tag 8) = 8 ∧
      (4 &&& index.heap_bit = 0 →
        index.index_pointer.is_address 4 = true ∧ index.index_pointer.to_address 4 = 4)) :=
  ⟨by norm_num, by norm_num, claim_C10_index_pointer_roundtrip 8 4 (by norm_num) (by norm_num)⟩

end Pstore

